import Mathlib

/-!
# Deferred calls and their trampoline (`ssa/eh.go`)

A shallow embedding of the defer lowering of `ssa/eh.go`: the chain record
(`getDefer`), registration (`Defer`), exit points (`RunDefers`) and the
trampoline (`endDefer`).  Go's mutable `Function` and `Builder` objects are
passed explicitly; the closures stored in `aDefer.stmts` are kept as data
(`DeferStmt`) together with the function that runs their body.
-/

namespace EH

/-! ## Values, instructions, blocks -/

/-- Modelled from the spec: the registration kinds of `DoAction` (declared
outside `eh.go`): unconditional, conditional and loop-scoped, and any other
integer value of the Go type. -/
inductive DoAction
  | DeferAlways
  | DeferInCond
  | DeferInLoop
  | other (code : Nat)
  deriving DecidableEq, Repr

/-- Binary operators that `eh.go` passes to `BinOp`. -/
inductive Tok
  | OR
  | AND
  | NEQ
  | EQL
  deriving DecidableEq, Repr

/-- An IR value (`Expr`).  `nil` is Go's zero `Expr{}`; `uintptr n` is
`prog.Val(uintptr(n))`; `int n` is `prog.Val(n)` for a Go `int`; `reg i` is
the result of the instruction numbered `i`; `ext n` is a value handed in by
the caller (a callee or an argument). -/
inductive Expr
  | nil
  | uintptr (n : Nat)
  | int (n : Int)
  | global (name : String)
  | reg (id : Nat)
  | ext (n : Nat)
  deriving DecidableEq, Repr

/-- Modelled from the spec: the instructions of the IR-builder collaborator
that `eh.go` emits (load/store, binary operation, field address, field
extraction, record allocation, thread-local get/set, call, guarded call,
jump, multi-way branch, unreachable marker). -/
inductive Opcode
  | load (ptr : Expr)
  | store (ptr val : Expr)
  | binop (op : Tok) (x y : Expr)
  | fieldAddr (ptr : Expr) (idx : Nat)
  | getField (x : Expr) (idx : Nat)
  | aggregateAlloca (vals : List Expr)
  | pthreadGetspecific (key : Expr)
  | pthreadSetspecific (key val : Expr)
  | call (fn : Expr) (args : List Expr)
  | ifThenCall (cond fn : Expr) (args : List Expr)
  | jump (blk : Nat)
  | switch (v : Expr) (dflt : Nat) (cases : List (Expr × Nat))
  | unreachable
  deriving DecidableEq, Repr

/-- An emitted instruction: its result number and its opcode. -/
structure Instr where
  id : Nat
  op : Opcode
  deriving DecidableEq, Repr

/-- A basic block: the instructions of its own LLVM block (`first`, which is
the block itself) and the index of the LLVM block it currently ends in
(`last`). -/
structure Block where
  instrs : List Instr
  last : Nat
  deriving DecidableEq, Repr

/-- Insertion points used by `eh.go`. -/
inductive InsertPoint
  | AtEnd
  | BeforeLast
  deriving DecidableEq, Repr

/-- A builder: its current block `blk` and its insertion point, the LLVM
block `ipBlk` and the position `pos` inside it. -/
structure Builder where
  blk : Nat
  ipBlk : Nat
  pos : InsertPoint
  deriving DecidableEq, Repr

/-- The closure `func(bits Expr)` that `Defer` appends to `stmts` (lines
171-182), kept as its captured variables. -/
structure DeferStmt where
  kind : DoAction
  fn : Expr
  args : List Expr
  nextbit : Expr
  deriving DecidableEq, Repr

/-- The per-function defer state (`aDefer`). -/
structure aDefer where
  nextBit : Nat
  key : Expr
  data : Expr
  bitsPtr : Expr
  rundPtr : Expr
  procBlk : Nat
  stmts : List DeferStmt
  runsNext : List Nat
  deriving DecidableEq, Repr

/-- A function under construction: its blocks, its defer state (`defer_`,
`none` is Go's nil) and the number of the next instruction. -/
structure Function where
  blks : List Block
  defer_ : Option aDefer
  nreg : Nat
  deriving DecidableEq, Repr

/-- Outcome of a call that may panic: the panic keeps the state the function
was in when it was raised. -/
inductive Outcome (α : Type)
  | ok (a : α)
  | panicked (msg : String) (p : Function)
  deriving Repr

/-! ## Builder primitives -/

/-- Apply `f` to the block with index `i`. -/
def updBlock (f : Block → Block) : Nat → List Block → List Block
  | _, [] => []
  | 0, B :: bs => f B :: bs
  | i + 1, B :: bs => B :: updBlock f i bs

/-- Place an instruction at an insertion point: at the end, or right before
the block's last instruction (at the front of an empty block). -/
def insertInstr (pos : InsertPoint) (is : List Instr) (i : Instr) : List Instr :=
  match pos with
  | InsertPoint.AtEnd => is ++ [i]
  | InsertPoint.BeforeLast => is.take (is.length - 1) ++ i :: is.drop (is.length - 1)

/-- The LLVM block a basic block ends in (`blk.last`). -/
def blockLast (p : Function) (blk : Nat) : Nat :=
  match p.blks[blk]? with
  | some B => B.last
  | none => blk

/-- Modelled from the spec: emission of one instruction at the builder's
insertion point; the result is the new instruction's value. -/
def Builder.emit (b : Builder) (p : Function) (op : Opcode) : Function × Expr :=
  ({ p with
      blks := updBlock (fun B => { B with instrs := insertInstr b.pos B.instrs ⟨p.nreg, op⟩ })
        b.ipBlk p.blks
      nreg := p.nreg + 1 },
   Expr.reg p.nreg)

/-- Modelled from the spec: block creation; the new block gets the next
index and ends in itself. -/
def Function.MakeBlock (p : Function) : Function × Nat :=
  ({ p with blks := p.blks ++ [⟨[], p.blks.length⟩] }, p.blks.length)

/-- Modelled from the spec: `SetBlockEx(blk, pos, setBlk)` moves the
insertion point into the LLVM block `blk.last` and, when `setBlk`, makes
`blk` the builder's current block. -/
def Builder.SetBlockEx (b : Builder) (p : Function) (blk : Nat) (pos : InsertPoint)
    (setBlk : Bool) : Builder :=
  { blk := if setBlk then blk else b.blk, ipBlk := blockLast p blk, pos := pos }

/-- The assignment `b.blk.last = v`. -/
def Function.setLast (p : Function) (blk : Nat) (v : Nat) : Function :=
  { p with blks := updBlock (fun B => { B with last := v }) blk p.blks }

/-- Name of the package-level variable holding the thread-local key. -/
def deferKey : String := "__llgo_defer"

/-- A builder fresh from `NewBuilder`, not yet positioned. -/
def Function.NewBuilder (_p : Function) : Builder :=
  { blk := 0, ipBlk := 0, pos := InsertPoint.AtEnd }

/-- Source `Function.deferInitBuilder` (lines 81-85). -/
def Function.deferInitBuilder (p : Function) : Builder :=
  (p.NewBuilder).SetBlockEx p 0 InsertPoint.BeforeLast true

/-- Source `Builder.deferKey` (lines 119-121): a load of the key variable. -/
def Builder.deferKey (b : Builder) (p : Function) : Function × Expr :=
  b.emit p (Opcode.load (Expr.global EH.deferKey))

/-! ## The defer lowering -/

/-- Source `Builder.getDefer` (lines 123-148). -/
def Builder.getDefer (b : Builder) (p : Function) (kind : DoAction) : Function × aDefer :=
  match p.defer_ with
  | some self => (p, self)
  | none =>
    let b := if kind ≠ DoAction.DeferAlways then p.deferInitBuilder else b
    let (p, key) := b.deferKey p
    let zero := Expr.uintptr 0
    let (p, link) := b.emit p (Opcode.pthreadGetspecific key)
    let (p, ptr) := b.emit p (Opcode.aggregateAlloca [zero, link])
    let deferData := ptr
    let (p, _) := b.emit p (Opcode.pthreadSetspecific key deferData)
    let (p, bitsPtr) := b.emit p (Opcode.fieldAddr deferData 0)
    let (p, rundPtr) := b.emit p (Opcode.fieldAddr deferData 2)
    let (p, procBlk) := p.MakeBlock
    let self : aDefer :=
      { nextBit := 0, key := key, data := deferData, bitsPtr := bitsPtr, rundPtr := rundPtr,
        procBlk := procBlk, stmts := [], runsNext := [] }
    ({ p with defer_ := some self }, self)

/-- The constant `uintptr(1 << next)` of line 164: a shift in a 64-bit
unsigned word. -/
def bitMask (next : Nat) : Nat := (1 <<< next) % 2 ^ 64

/-- Source `Builder.Defer` (lines 151-183). -/
def Builder.Defer (b : Builder) (p : Function) (kind : DoAction) (fn : Expr)
    (args : List Expr) : Outcome Function :=
  let (p, self) := b.getDefer p kind
  match kind with
  | DoAction.DeferInCond =>
    let next := self.nextBit
    let self := { self with nextBit := self.nextBit + 1 }
    let (p, bits) := b.emit p (Opcode.load self.bitsPtr)
    let nextbit := Expr.uintptr (bitMask next)
    let (p, v) := b.emit p (Opcode.binop Tok.OR bits nextbit)
    let (p, _) := b.emit p (Opcode.store self.bitsPtr v)
    Outcome.ok { p with defer_ := some { self with stmts := self.stmts ++ [⟨kind, fn, args, nextbit⟩] } }
  | DoAction.DeferAlways =>
    Outcome.ok { p with defer_ := some { self with stmts := self.stmts ++ [⟨kind, fn, args, Expr.nil⟩] } }
  | _ => Outcome.panicked "todo: DeferInLoop is not supported" p

/-- Body of the closure appended by `Defer` (lines 171-182), run with the
builder `b` it captured. -/
def DeferStmt.run (st : DeferStmt) (bits : Expr) (b : Builder) (p : Function) : Function :=
  match st.kind with
  | DoAction.DeferInCond =>
    let zero := Expr.uintptr 0
    let (p, a) := b.emit p (Opcode.binop Tok.AND bits st.nextbit)
    let (p, has) := b.emit p (Opcode.binop Tok.NEQ a zero)
    (b.emit p (Opcode.ifThenCall has st.fn st.args)).1
  | DoAction.DeferAlways => (b.emit p (Opcode.call st.fn st.args)).1
  | _ => p

/-- Source `Builder.RunDefers` (lines 186-197). -/
def Builder.RunDefers (b : Builder) (p : Function) : Builder × Function :=
  let (p, self) := b.getDefer p DoAction.DeferInCond
  let (p, _) := b.emit p (Opcode.store self.rundPtr (Expr.int self.runsNext.length))
  let (p, _) := b.emit p (Opcode.jump self.procBlk)
  let (p, blk) := p.MakeBlock
  let self := { self with runsNext := self.runsNext ++ [blk] }
  let p := { p with defer_ := some self }
  let b1 := b.SetBlockEx p blk InsertPoint.AtEnd false
  let p := p.setLast b1.blk (blockLast p blk)
  (b1, p)

/-- The loop `for i := len(stmts) - 1; i >= 0; i--` of lines 212-214; the
counter argument is `i + 1`, so the loop starts at `len(stmts)`. -/
def runStmts (stmts : List DeferStmt) (bits : Expr) (b : Builder) : Nat → Function → Function
  | 0, p => p
  | i + 1, p =>
    match stmts[i]? with
    | some st => runStmts stmts bits b i (st.run bits b p)
    | none => runStmts stmts bits b i p

/-- The loop `for i := 1; i < n; i++` of lines 222-224, collecting the cases
it adds to the switch; the last argument counts the iterations left. -/
def addCases (nexts : List Nat) : Nat → Nat → List (Expr × Nat)
  | _, 0 => []
  | i, k + 1 =>
    match nexts[i]? with
    | some blk => (Expr.int i, blk) :: addCases nexts (i + 1) k
    | none => addCases nexts (i + 1) k

/-- Source `Function.endDefer` (lines 199-225); the match on `nexts` is the
test `n == 0`, and `next0` is `nexts[0]`. -/
def Function.endDefer (p : Function) (b : Builder) : Builder × Function :=
  match p.defer_ with
  | none => (b, p)
  | some self =>
    let nexts := self.runsNext
    let n := nexts.length
    match nexts with
    | [] => (b, p)
    | next0 :: _ =>
      let b := b.SetBlockEx p self.procBlk InsertPoint.AtEnd true
      let (p, bits) := b.emit p (Opcode.load self.bitsPtr)
      let stmts := self.stmts
      let p := runStmts stmts bits b stmts.length p
      let (p, loaded) := b.emit p (Opcode.load self.data)
      let (p, link) := b.emit p (Opcode.getField loaded 2)
      let (p, _) := b.emit p (Opcode.pthreadSetspecific self.key link)
      let (p, rund) := b.emit p (Opcode.load self.rundPtr)
      let (p, _) := b.emit p (Opcode.switch rund next0 (addCases nexts 1 (n - 1)))
      (b, p)

/-! ## Traps and non-local jump signatures -/

/-- Modelled from the spec: `Pkg.rtFunc(name)`, the callable of the runtime
entry point `name` (declared outside `eh.go`); it emits no instruction. -/
def rtFunc (name : String) : Expr := Expr.global name

/-- Source `Builder.Panic` (lines 241-247). -/
def Builder.Panic (b : Builder) (p : Function) (v : Expr) : Function :=
  let (p, _) := b.emit p (Opcode.call (rtFunc "TracePanic") [v])
  (b.emit p Opcode.unreachable).1

/-- Source `Builder.Unreachable` (lines 250-252). -/
def Builder.Unreachable (b : Builder) (p : Function) : Function :=
  (b.emit p Opcode.unreachable).1

/-- Modelled from the spec: the two C types the signatures are built from,
`p.VoidPtr().raw.Type` and `p.CInt().raw.Type` (declared outside `eh.go`). -/
inductive CType
  | VoidPtr
  | CInt
  deriving DecidableEq, Repr

/-- A parameter or result variable, `types.NewParam(token.NoPos, nil, name,
typ)`. -/
structure Var where
  name : String
  typ : CType
  deriving DecidableEq, Repr

/-- A signature, `types.NewSignatureType(nil, nil, nil, params, results,
variadic)`; a nil tuple is the empty list. -/
structure Signature where
  params : List Var
  results : List Var
  variadic : Bool
  deriving DecidableEq, Repr

/-- The two signature caches of a `Program` (`none` is Go's nil). -/
structure Program where
  sigsetjmpTy : Option Signature
  sigljmpTy : Option Signature
  deriving DecidableEq, Repr

/-- Source `Program.tySigsetjmp` (lines 36-45). -/
def Program.tySigsetjmp (p : Program) : Program × Signature :=
  match p.sigsetjmpTy with
  | some sig => (p, sig)
  | none =>
    let paramPtr : Var := ⟨"", CType.VoidPtr⟩
    let paramCInt : Var := ⟨"", CType.CInt⟩
    let params := [paramPtr, paramCInt]
    let results := [paramCInt]
    let sig : Signature := ⟨params, results, false⟩
    ({ p with sigsetjmpTy := some sig }, sig)

/-- Source `Program.tySiglongjmp` (lines 48-56). -/
def Program.tySiglongjmp (p : Program) : Program × Signature :=
  match p.sigljmpTy with
  | some sig => (p, sig)
  | none =>
    let paramPtr : Var := ⟨"", CType.VoidPtr⟩
    let paramCInt : Var := ⟨"", CType.CInt⟩
    let params := [paramPtr, paramCInt]
    let sig : Signature := ⟨params, [], false⟩
    ({ p with sigljmpTy := some sig }, sig)

/-- A program whose signature caches are still nil. -/
def Program.new : Program := ⟨none, none⟩

/-- A sequence of signature requests on a program: `true` asks for the
`sigsetjmp` signature, `false` for the `siglongjmp` one. -/
def Program.after : List Bool → Program → Program
  | [], p => p
  | true :: cs, p => Program.after cs p.tySigsetjmp.1
  | false :: cs, p => Program.after cs p.tySiglongjmp.1

/-! ## A generation pass -/

/-- One call made by the generator on a function: a registration or an exit
point. -/
inductive Op
  | defer (kind : DoAction) (fn : Expr) (args : List Expr)
  | runDefers
  deriving DecidableEq, Repr

/-- The function under construction together with its body builder. -/
structure BuildState where
  b : Builder
  p : Function
  deriving DecidableEq, Repr

/-- Perform one call. -/
def step (s : BuildState) : Op → Outcome BuildState
  | Op.defer kind fn args =>
    match s.b.Defer s.p kind fn args with
    | Outcome.ok p => Outcome.ok ⟨s.b, p⟩
    | Outcome.panicked msg p => Outcome.panicked msg p
  | Op.runDefers => Outcome.ok ⟨(s.b.RunDefers s.p).1, (s.b.RunDefers s.p).2⟩

/-- Perform a sequence of calls, stopping at the first panic. -/
def runOps : List Op → BuildState → Outcome BuildState
  | [], s => Outcome.ok s
  | o :: os, s =>
    match step s o with
    | Outcome.ok s1 => runOps os s1
    | Outcome.panicked msg p => Outcome.panicked msg p

/-- The final call of a pass: `endDefer` with the body builder. -/
def finish (s : BuildState) : BuildState :=
  ⟨(s.p.endDefer s.b).1, (s.p.endDefer s.b).2⟩

/-- A state the generator can be in before the first defer-related call: no
defer state yet, the builder stands in existing blocks, and every block ends
in an existing block. -/
def Fresh (s : BuildState) : Prop :=
  s.p.defer_ = none ∧ s.b.blk < s.p.blks.length ∧ s.b.ipBlk < s.p.blks.length ∧
    ∀ B ∈ s.p.blks, B.last < s.p.blks.length

instance (s : BuildState) : Decidable (Fresh s) :=
  inferInstanceAs (Decidable (_ ∧ _ ∧ _ ∧ _))

/-- The kind `getDefer` is called with by a call. -/
def opKind : Op → DoAction
  | Op.defer kind _ _ => kind
  | Op.runDefers => DoAction.DeferInCond

/-- The function an outcome leaves behind. -/
def outcomeFn : Outcome BuildState → Function
  | Outcome.ok s => s.p
  | Outcome.panicked _ p => p

/-- The state of a successful outcome (`dflt` after a panic). -/
def okState (dflt : BuildState) : Outcome BuildState → BuildState
  | Outcome.ok s => s
  | Outcome.panicked _ _ => dflt

/-- The function a `Defer` call leaves behind, panic or not. -/
def deferFn : Outcome Function → Function
  | Outcome.ok p => p
  | Outcome.panicked _ p => p

/-- Whether a call panicked. -/
def isPanic {α : Type} : Outcome α → Bool
  | Outcome.ok _ => false
  | Outcome.panicked _ _ => true

/-- The function a whole pass leaves behind: after `endDefer` when every call
succeeded, at the panic otherwise. -/
def passFn (ops : List Op) (s0 : BuildState) : Function :=
  match runOps ops s0 with
  | Outcome.ok s => (finish s).p
  | Outcome.panicked _ p => p

/-! ## Observations -/

/-- Instructions of the LLVM block with index `k`. -/
def Function.instrsOf (p : Function) (k : Nat) : List Instr :=
  match p.blks[k]? with
  | some B => B.instrs
  | none => []

/-- All instructions of the function, block after block. -/
def Function.allInstrs (p : Function) : List Instr :=
  (p.blks.map (fun B => B.instrs)).flatten

/-- The trampoline: the instructions of the block `procBlk`. -/
def Function.trampoline (p : Function) : List Instr :=
  match p.defer_ with
  | some d => p.instrsOf d.procBlk
  | none => []

/-- The registration list of a state (empty while there is no record). -/
def stmtsOf (p : Function) : List DeferStmt :=
  match p.defer_ with
  | some d => d.stmts
  | none => []

/-- The next-bit counter of a state (zero while there is no record). -/
def nextBitOf (p : Function) : Nat :=
  match p.defer_ with
  | some d => d.nextBit
  | none => 0

/-- The resume-point table of a state (empty while there is no record). -/
def runsOf (p : Function) : List Nat :=
  match p.defer_ with
  | some d => d.runsNext
  | none => []

/-- The thunk executions a run of instructions contains, in order: a plain
call is an unconditional thunk, a guarded call a conditional one. -/
def thunkCalls (is : List Instr) : List (DoAction × Expr × List Expr) :=
  is.filterMap (fun i => match i.op with
    | Opcode.call fn args => some (DoAction.DeferAlways, fn, args)
    | Opcode.ifThenCall _ fn args => some (DoAction.DeferInCond, fn, args)
    | _ => none)

/-- The registrations of a sequence of calls, in order. -/
def registrations (ops : List Op) : List (DoAction × Expr × List Expr) :=
  ops.filterMap (fun o => match o with
    | Op.defer kind fn args => some (kind, fn, args)
    | Op.runDefers => none)

/-- Kind, callee and arguments of a thunk. -/
def stmtView (st : DeferStmt) : DoAction × Expr × List Expr := (st.kind, st.fn, st.args)

/-- The masks of the conditional thunks of a registration list, in order. -/
def condMasks (sts : List DeferStmt) : List Expr :=
  (sts.filter (fun st => decide (st.kind = DoAction.DeferInCond))).map (fun st => st.nextbit)

/-- The instructions that touch the thread-local chain or allocate the
record. -/
def isChainOp : Opcode → Bool
  | Opcode.aggregateAlloca _ => true
  | Opcode.pthreadGetspecific _ => true
  | Opcode.pthreadSetspecific _ _ => true
  | _ => false

/-- Whether an instruction is a thunk's call. -/
def isCallOp : Opcode → Bool
  | Opcode.call _ _ => true
  | Opcode.ifThenCall _ _ _ => true
  | _ => false

/-- Whether an instruction allocates a record. -/
def isAlloca : Opcode → Bool
  | Opcode.aggregateAlloca _ => true
  | _ => false

/-- Whether an instruction reads the thread-local slot. -/
def isTlsRead : Opcode → Bool
  | Opcode.pthreadGetspecific _ => true
  | _ => false

/-- Whether an instruction writes the value `v` into the thread-local slot. -/
def isTlsWriteOf (v : Expr) : Opcode → Bool
  | Opcode.pthreadSetspecific _ w => decide (w = v)
  | _ => false

/-- Whether an instruction writes the thread-local slot. -/
def isTlsWrite : Opcode → Bool
  | Opcode.pthreadSetspecific _ _ => true
  | _ => false

/-- Whether an instruction is a multi-way branch. -/
def isSwitch : Opcode → Bool
  | Opcode.switch _ _ _ => true
  | _ => false

/-- Whether an instruction is the test of a flag bit on the value `bits`. -/
def isFlagTest (bits : Expr) : Opcode → Bool
  | Opcode.binop Tok.AND x _ => decide (x = bits)
  | _ => false

/-- Whether an instruction is one a thunk emits when it is given `bits`: a
call, a guarded call, the test of a flag bit on `bits`, or the comparison of
a test with zero. -/
def isThunkOp (bits : Expr) : Opcode → Bool
  | Opcode.call _ _ => true
  | Opcode.ifThenCall _ _ _ => true
  | Opcode.binop Tok.AND x _ => decide (x = bits)
  | Opcode.binop Tok.NEQ _ y => decide (y = Expr.uintptr 0)
  | _ => false

/-- Number of instructions of a function whose opcode satisfies `q`. -/
def countOps (q : Opcode → Bool) (p : Function) : Nat :=
  p.allInstrs.countP (fun i => q i.op)

/-- Number of stores of the function's own record into the thread-local
slot (none while there is no record). -/
def pushes (p : Function) : Nat :=
  match p.defer_ with
  | some d => countOps (isTlsWriteOf d.data) p
  | none => 0

/-- Number of writes of the thread-local slot in the trampoline. -/
def restores (p : Function) : Nat :=
  p.trampoline.countP (fun i => isTlsWrite i.op)

/-- Destination of a multi-way branch for the selector value `v`: the block
of the first case with that value, the default block if there is none. -/
def switchDest (dflt : Nat) (cases : List (Expr × Nat)) (v : Expr) : Nat :=
  match cases.find? (fun c => decide (c.1 = v)) with
  | some c => c.2
  | none => dflt

/-! ## What a pass emits -/

/-- Emission of a run of instructions, one after the other, at the builder's
insertion point. -/
def emitCode (b : Builder) (code : List Instr) (p : Function) : Function :=
  { p with
    blks := updBlock (fun B => { B with instrs := code.foldl (insertInstr b.pos) B.instrs })
      b.ipBlk p.blks
    nreg := p.nreg + code.length }

/-- The instructions `getDefer` emits when it creates the record (lines
133-143), numbered from `n`. -/
def acquireCode (n : Nat) : List Instr :=
  [⟨n, Opcode.load (Expr.global deferKey)⟩,
   ⟨n + 1, Opcode.pthreadGetspecific (Expr.reg n)⟩,
   ⟨n + 2, Opcode.aggregateAlloca [Expr.uintptr 0, Expr.reg (n + 1)]⟩,
   ⟨n + 3, Opcode.pthreadSetspecific (Expr.reg n) (Expr.reg (n + 2))⟩,
   ⟨n + 4, Opcode.fieldAddr (Expr.reg (n + 2)) 0⟩,
   ⟨n + 5, Opcode.fieldAddr (Expr.reg (n + 2)) 2⟩]

/-- The defer state `getDefer` creates when its instructions are numbered
from `n` and the function has `nblk` blocks. -/
def newDefer (n nblk : Nat) : aDefer :=
  { nextBit := 0, key := Expr.reg n, data := Expr.reg (n + 2), bitsPtr := Expr.reg (n + 4),
    rundPtr := Expr.reg (n + 5), procBlk := nblk, stmts := [], runsNext := [] }

/-- The builder `getDefer` emits with: the entry-block builder unless the
kind is `DeferAlways`. -/
def acquireBuilder (b : Builder) (p : Function) (kind : DoAction) : Builder :=
  if kind ≠ DoAction.DeferAlways then p.deferInitBuilder else b

/-- The instructions a conditional registration emits (lines 163-165),
numbered from `n`. -/
def armCode (d : aDefer) (n : Nat) : List Instr :=
  [⟨n, Opcode.load d.bitsPtr⟩,
   ⟨n + 1, Opcode.binop Tok.OR (Expr.reg n) (Expr.uintptr (bitMask d.nextBit))⟩,
   ⟨n + 2, Opcode.store d.bitsPtr (Expr.reg (n + 1))⟩]

/-- The instructions `RunDefers` emits at the exit point (lines 189-190),
numbered from `n`. -/
def exitCode (d : aDefer) (n : Nat) : List Instr :=
  [⟨n, Opcode.store d.rundPtr (Expr.int d.runsNext.length)⟩, ⟨n + 1, Opcode.jump d.procBlk⟩]

/-- The instructions one thunk emits, numbered from `n`. -/
def stmtCode (st : DeferStmt) (bits : Expr) (n : Nat) : List Instr :=
  match st.kind with
  | DoAction.DeferInCond =>
    [⟨n, Opcode.binop Tok.AND bits st.nextbit⟩,
     ⟨n + 1, Opcode.binop Tok.NEQ (Expr.reg n) (Expr.uintptr 0)⟩,
     ⟨n + 2, Opcode.ifThenCall (Expr.reg (n + 1)) st.fn st.args⟩]
  | DoAction.DeferAlways => [⟨n, Opcode.call st.fn st.args⟩]
  | _ => []

/-- The instructions a list of thunks emits when run front to back. -/
def thunksCode (bits : Expr) : List DeferStmt → Nat → List Instr
  | [], _ => []
  | st :: sts, n => stmtCode st bits n ++ thunksCode bits sts (n + (stmtCode st bits n).length)

/-- The instructions `endDefer` emits after the thunks (lines 216-224),
numbered from `m`. -/
def restoreCode (d : aDefer) (next0 : Nat) (m : Nat) : List Instr :=
  [⟨m, Opcode.load d.data⟩,
   ⟨m + 1, Opcode.getField (Expr.reg m) 2⟩,
   ⟨m + 2, Opcode.pthreadSetspecific d.key (Expr.reg (m + 1))⟩,
   ⟨m + 3, Opcode.load d.rundPtr⟩,
   ⟨m + 4, Opcode.switch (Expr.reg (m + 3)) next0 (addCases d.runsNext 1 (d.runsNext.length - 1))⟩]

/-- The whole trampoline `endDefer` emits, numbered from `n`. -/
def trampolineCode (d : aDefer) (next0 : Nat) (n : Nat) : List Instr :=
  ⟨n, Opcode.load d.bitsPtr⟩ :: thunksCode (Expr.reg n) d.stmts.reverse (n + 1) ++
    restoreCode d next0 (n + 1 + (thunksCode (Expr.reg n) d.stmts.reverse (n + 1)).length)

/-- The thunks a sequence of calls registers when the next free bit index is
`next`: the conditional registrations take the indices `next`, `next + 1`, ...
in order. -/
def stmtsFrom : Nat → List Op → List DeferStmt
  | _, [] => []
  | next, Op.defer DoAction.DeferInCond fn args :: os =>
    ⟨DoAction.DeferInCond, fn, args, Expr.uintptr (bitMask next)⟩ :: stmtsFrom (next + 1) os
  | next, Op.defer DoAction.DeferAlways fn args :: os =>
    ⟨DoAction.DeferAlways, fn, args, Expr.nil⟩ :: stmtsFrom next os
  | next, _ :: os => stmtsFrom next os

/-- Number of conditional registrations in a sequence of calls. -/
def condCount (ops : List Op) : Nat :=
  ops.countP (fun o => match o with
    | Op.defer DoAction.DeferInCond _ _ => true
    | _ => false)

/-- Number of `RunDefers` calls in a sequence of calls. -/
def runCount (ops : List Op) : Nat :=
  ops.countP (fun o => match o with
    | Op.runDefers => true
    | _ => false)

/-- The instructions one call emits once the record exists, numbered from `n`. -/
def stepCode (d : aDefer) (n : Nat) : Op → List Instr
  | Op.defer DoAction.DeferInCond _ _ => armCode d n
  | Op.defer _ _ _ => []
  | Op.runDefers => exitCode d n

/-- What holds of a state once the record exists: the builder stands in
existing blocks other than the trampoline block, the trampoline block is
still empty and ends in itself, and the resume blocks are existing, distinct
blocks other than the trampoline block. -/
structure Inv (s : BuildState) (d : aDefer) : Prop where
  hd : s.p.defer_ = some d
  hblk : s.b.blk < s.p.blks.length
  hip : s.b.ipBlk < s.p.blks.length
  hproc : s.p.blks[d.procBlk]? = some ⟨[], d.procBlk⟩
  hipne : s.b.ipBlk ≠ d.procBlk
  hblkne : s.b.blk ≠ d.procBlk
  hruns : ∀ k ∈ d.runsNext, k < s.p.blks.length ∧ k ≠ d.procBlk
  hnodup : d.runsNext.Nodup
  hdata : ∃ i, d.data = Expr.reg i ∧ i < s.p.nreg

/-! ## Running the generated code -/

/-- A run-time value: undefined, a word (integer or opaque address), the
address of this activation's record, the address of one of its fields, or a
loaded record. -/
inductive RtVal
  | undef
  | num (n : Nat)
  | recPtr
  | fieldPtr (i : Nat)
  | agg (fields : List (Option Nat))
  deriving DecidableEq, Repr

/-- The state of one activation: its registers (latest first), the
thread-local chain slot, the fields of its record (`bits`, `link`, `rund`),
the thunk targets called so far and the block control goes to next. -/
structure Machine where
  regs : List (Nat × RtVal)
  tls : RtVal
  record : List (Option Nat)
  calls : List (Expr × List Expr)
  next : Option Nat
  deriving DecidableEq, Repr

/-- Value bound to register `i` in a register list (the latest binding). -/
def regOf (regs : List (Nat × RtVal)) (i : Nat) : RtVal :=
  match regs.find? (fun x => x.1 == i) with
  | some x => x.2
  | none => RtVal.undef

/-- Value of register `i`. -/
def Machine.reg (m : Machine) (i : Nat) : RtVal := regOf m.regs i

/-- Value of an operand. -/
def Machine.eval (m : Machine) : Expr → RtVal
  | Expr.uintptr n => RtVal.num n
  | Expr.int n => RtVal.num n.toNat
  | Expr.reg i => m.reg i
  | _ => RtVal.undef

/-- Bind register `i`. -/
def Machine.setReg (m : Machine) (i : Nat) (v : RtVal) : Machine :=
  { m with regs := (i, v) :: m.regs }

/-- What a record field holds when `v` is stored into it. -/
def asField : RtVal → Option Nat
  | RtVal.num n => some n
  | _ => none

/-- What loading a record field yields. -/
def ofField : Option Nat → RtVal
  | some n => RtVal.num n
  | none => RtVal.undef

/-- Binary operations on words. -/
def evalBin : Tok → RtVal → RtVal → RtVal
  | Tok.OR, RtVal.num a, RtVal.num b => RtVal.num (a ||| b)
  | Tok.AND, RtVal.num a, RtVal.num b => RtVal.num (a &&& b)
  | Tok.NEQ, RtVal.num a, RtVal.num b => RtVal.num (if a ≠ b then 1 else 0)
  | Tok.EQL, RtVal.num a, RtVal.num b => RtVal.num (if a = b then 1 else 0)
  | _, _, _ => RtVal.undef

/-- Effect of one instruction. -/
def execInstr (m : Machine) (i : Instr) : Machine :=
  match i.op with
  | Opcode.load ptr =>
    match m.eval ptr with
    | RtVal.fieldPtr k => m.setReg i.id (ofField (m.record.getD k none))
    | RtVal.recPtr => m.setReg i.id (RtVal.agg m.record)
    | _ => m.setReg i.id RtVal.undef
  | Opcode.store ptr v =>
    match m.eval ptr with
    | RtVal.fieldPtr k => { m with record := m.record.set k (asField (m.eval v)) }
    | _ => m
  | Opcode.binop op x y => m.setReg i.id (evalBin op (m.eval x) (m.eval y))
  | Opcode.fieldAddr ptr k =>
    match m.eval ptr with
    | RtVal.recPtr => m.setReg i.id (RtVal.fieldPtr k)
    | _ => m.setReg i.id RtVal.undef
  | Opcode.getField x k =>
    match m.eval x with
    | RtVal.agg fs => m.setReg i.id (ofField (fs.getD k none))
    | _ => m.setReg i.id RtVal.undef
  | Opcode.aggregateAlloca vals =>
    { m with
      regs := (i.id, RtVal.recPtr) :: m.regs
      record := vals.map (fun v => asField (m.eval v)) ++ List.replicate (3 - vals.length) none }
  | Opcode.pthreadGetspecific _ => m.setReg i.id m.tls
  | Opcode.pthreadSetspecific _ v => { m with tls := m.eval v }
  | Opcode.call fn args => { m with calls := m.calls ++ [(fn, args)] }
  | Opcode.ifThenCall c fn args =>
    match m.eval c with
    | RtVal.num n => if n ≠ 0 then { m with calls := m.calls ++ [(fn, args)] } else m
    | _ => m
  | Opcode.jump blk => { m with next := some blk }
  | Opcode.switch v dflt cases =>
    { m with
      next := some (match cases.find? (fun c => decide (m.eval c.1 = m.eval v)) with
        | some c => c.2
        | none => dflt) }
  | Opcode.unreachable => { m with next := none }

/-- Effect of a run of instructions. -/
def execBlock (m : Machine) (is : List Instr) : Machine :=
  is.foldl execInstr m

/-- Run the function from block `blk`, following jumps and branches, for at
most `fuel` blocks. -/
def runFrom (p : Function) : Nat → Nat → Machine → Machine
  | 0, _, m => m
  | fuel + 1, blk, m =>
    match (execBlock { m with next := none } (p.instrsOf blk)).next with
    | some b => runFrom p fuel b (execBlock { m with next := none } (p.instrsOf blk))
    | none => execBlock { m with next := none } (p.instrsOf blk)

/-- A machine entering the function: no register bound, the thread-local slot
holding the caller's chain head `head`, no record yet. -/
def Machine.entry (head : Nat) : Machine :=
  { regs := [], tls := RtVal.num head, record := [], calls := [], next := none }

/-- The thunk targets a run of the trampoline has to call, first registered
first, when the conditional registrations with the bit indices `reached` were
reached: every unconditional one, and a conditional one exactly if its index
is among `reached`.  `next` is the index of the next conditional
registration. -/
def firedFrom (reached : List Nat) : Nat → List Op → List (Expr × List Expr)
  | _, [] => []
  | next, Op.defer DoAction.DeferInCond fn args :: os =>
    (if next ∈ reached then [(fn, args)] else []) ++ firedFrom reached (next + 1) os
  | next, Op.defer DoAction.DeferAlways fn args :: os =>
    (fn, args) :: firedFrom reached next os
  | next, _ :: os => firedFrom reached next os

/-- Run the registration code of the reached conditional registrations, one
after the other: each entry is the bit index of a registration and the
number of the first of its three instructions. -/
def armAll (d : aDefer) (reached : List (Nat × Nat)) (m : Machine) : Machine :=
  reached.foldl (fun m jk => execBlock m (armCode { d with nextBit := jk.1 } jk.2)) m

/-- The target a thunk calls when the loaded flag word is `flags`, if any. -/
def DeferStmt.fires (st : DeferStmt) (flags : Nat) : Option (Expr × List Expr) :=
  match st.kind with
  | DoAction.DeferInCond =>
    match st.nextbit with
    | Expr.uintptr mask => if flags &&& mask ≠ 0 then some (st.fn, st.args) else none
    | _ => none
  | DoAction.DeferAlways => some (st.fn, st.args)
  | _ => none

/-! ## Examples -/

/-- Example: a function with a two-instruction entry block and one more
block, the body builder standing at the end of the entry block. -/
def exStart : BuildState :=
  ⟨⟨0, 0, InsertPoint.AtEnd⟩,
   ⟨[⟨[⟨0, Opcode.load (Expr.ext 9)⟩, ⟨1, Opcode.jump 1⟩], 0⟩, ⟨[], 1⟩], none, 2⟩⟩

/-- Example pass: an unconditional and two conditional registrations, with
two exit points. -/
def exOps : List Op :=
  [Op.defer DoAction.DeferAlways (Expr.ext 1) [],
   Op.defer DoAction.DeferInCond (Expr.ext 2) [Expr.ext 3],
   Op.runDefers,
   Op.defer DoAction.DeferInCond (Expr.ext 4) [],
   Op.runDefers]

/-- Example: the state after the first two calls of the example pass (two
registrations, no exit point yet). -/
def exRegistered : BuildState := okState exStart (runOps (exOps.take 2) exStart)

/-- Example: a function whose entry block is still open, the body builder
standing at its end. -/
def exOpen : BuildState :=
  ⟨⟨0, 0, InsertPoint.AtEnd⟩, ⟨[⟨[⟨0, Opcode.load (Expr.ext 9)⟩], 0⟩], none, 1⟩⟩

/-- Example pass: one unconditional registration and one exit point. -/
def exOneExit : List Op :=
  [Op.defer DoAction.DeferAlways (Expr.ext 1) [], Op.runDefers]

/-- Example pass: sixty-five conditional registrations and one exit point. -/
def exManyCond : List Op :=
  List.replicate 65 (Op.defer DoAction.DeferInCond (Expr.ext 2) []) ++ [Op.runDefers]

/-- Example: the function of `exStart` with the body builder standing at the
end of its second block. -/
def exBranch : BuildState := ⟨⟨1, 1, InsertPoint.AtEnd⟩, exStart.p⟩

/-! ## Emission lemmas -/

theorem updBlock_length (f : Block → Block) (i : Nat) (bs : List Block) :
    (updBlock f i bs).length = bs.length := by
  induction bs generalizing i with
  | nil => simp [updBlock]
  | cons B bs ih => cases i <;> simp [updBlock, ih]

theorem updBlock_getElem? (f : Block → Block) (i j : Nat) (bs : List Block) :
    (updBlock f i bs)[j]? = if i = j then bs[j]?.map f else bs[j]? := by
  induction bs generalizing i j with
  | nil => simp [updBlock]
  | cons B bs ih =>
    cases i with
    | zero => cases j <;> simp [updBlock]
    | succ i => cases j <;> simp [updBlock, ih]

theorem insertInstr_perm (pos : InsertPoint) (is : List Instr) (i : Instr) :
    (insertInstr pos is i).Perm (is ++ [i]) := by
  cases pos with
  | AtEnd => exact List.Perm.refl _
  | BeforeLast =>
    simp only [insertInstr]
    have h : is = is.take (is.length - 1) ++ is.drop (is.length - 1) := (List.take_append_drop _ _).symm
    conv_rhs => rw [h]
    rw [List.append_assoc]
    apply List.Perm.append_left
    exact (List.perm_append_singleton i _).symm

theorem updBlock_updBlock (f g : Block → Block) (k : Nat) (bs : List Block) :
    updBlock f k (updBlock g k bs) = updBlock (fun B => f (g B)) k bs := by
  induction bs generalizing k with
  | nil => simp [updBlock]
  | cons B bs ih => cases k <;> simp [updBlock, ih]

theorem emit_eq (b : Builder) (p : Function) (op : Opcode) :
    b.emit p op = (emitCode b [⟨p.nreg, op⟩] p, Expr.reg p.nreg) := by
  simp [Builder.emit, emitCode]

theorem emitCode_emitCode (b : Builder) (c1 c2 : List Instr) (p : Function) :
    emitCode b c2 (emitCode b c1 p) = emitCode b (c1 ++ c2) p := by
  simp [emitCode, updBlock_updBlock, List.foldl_append, Nat.add_assoc]

@[simp] theorem emitCode_nil (b : Builder) (p : Function) : emitCode b [] p = p := by
  have h : ∀ (k : Nat) (bs : List Block),
      updBlock (fun B => { B with instrs := B.instrs }) k bs = bs := by
    intro k bs
    induction bs generalizing k with
    | nil => simp [updBlock]
    | cons B bs ih => cases k <;> simp [updBlock, ih]
  simp [emitCode, h]

@[simp] theorem emitCode_defer (b : Builder) (c : List Instr) (p : Function) :
    (emitCode b c p).defer_ = p.defer_ := rfl

@[simp] theorem emitCode_nreg (b : Builder) (c : List Instr) (p : Function) :
    (emitCode b c p).nreg = p.nreg + c.length := rfl

@[simp] theorem emitCode_length (b : Builder) (c : List Instr) (p : Function) :
    (emitCode b c p).blks.length = p.blks.length := by
  simp [emitCode, updBlock_length]

theorem emitCode_getElem? (b : Builder) (c : List Instr) (p : Function) (k : Nat) :
    (emitCode b c p).blks[k]? =
      if b.ipBlk = k then
        p.blks[k]?.map (fun B => { B with instrs := c.foldl (insertInstr b.pos) B.instrs })
      else p.blks[k]? := by
  simp [emitCode, updBlock_getElem?]

theorem foldl_insertInstr_atEnd (c is : List Instr) :
    c.foldl (insertInstr InsertPoint.AtEnd) is = is ++ c := by
  induction c generalizing is with
  | nil => simp
  | cons i c ih => simp [List.foldl_cons, insertInstr, ih]

theorem foldl_insertInstr_perm (pos : InsertPoint) (c is : List Instr) :
    (c.foldl (insertInstr pos) is).Perm (is ++ c) := by
  induction c generalizing is with
  | nil => simp
  | cons i c ih =>
    simp only [List.foldl_cons]
    refine (ih _).trans ?_
    have := (insertInstr_perm pos is i).append_right c
    simpa using this

theorem flatten_updBlock_perm (g : List Instr → List Instr) (c : List Instr)
    (hg : ∀ is, (g is).Perm (is ++ c)) (k : Nat) (bs : List Block) (hk : k < bs.length) :
    ((updBlock (fun B => { B with instrs := g B.instrs }) k bs).map
        (fun B => B.instrs)).flatten.Perm ((bs.map (fun B => B.instrs)).flatten ++ c) := by
  induction bs generalizing k with
  | nil => simp at hk
  | cons B bs ih =>
    cases k with
    | zero =>
      simp only [updBlock, List.map_cons, List.flatten_cons]
      refine ((hg B.instrs).append_right _).trans ?_
      simp only [List.append_assoc]
      apply List.Perm.append_left
      exact List.perm_append_comm
    | succ k =>
      simp only [updBlock, List.map_cons, List.flatten_cons, List.append_assoc]
      apply List.Perm.append_left
      exact ih k (by simpa using hk)

theorem emitCode_allInstrs (b : Builder) (c : List Instr) (p : Function)
    (hk : b.ipBlk < p.blks.length) :
    (emitCode b c p).allInstrs.Perm (p.allInstrs ++ c) := by
  simp only [Function.allInstrs, emitCode]
  exact flatten_updBlock_perm _ c (fun is => foldl_insertInstr_perm b.pos c is) _ _ hk

theorem emitCode_instrsOf (b : Builder) (c : List Instr) (p : Function) (k : Nat) :
    (emitCode b c p).instrsOf k =
      if b.ipBlk = k ∧ k < p.blks.length then c.foldl (insertInstr b.pos) (p.instrsOf k)
      else p.instrsOf k := by
  simp only [Function.instrsOf, emitCode_getElem?]
  by_cases h : b.ipBlk = k
  · by_cases hk : k < p.blks.length
    · simp [h, hk]
    · simp [h, hk, List.getElem?_eq_none (Nat.le_of_not_lt hk)]
  · simp [h]

/-! ## What the lowering functions return -/

theorem getDefer_some (b : Builder) (p : Function) (kind : DoAction) (d : aDefer)
    (h : p.defer_ = some d) : b.getDefer p kind = (p, d) := by
  simp [Builder.getDefer, h]

theorem getDefer_none (b : Builder) (p : Function) (kind : DoAction) (h : p.defer_ = none) :
    b.getDefer p kind =
      ({ blks := (emitCode (acquireBuilder b p kind) (acquireCode p.nreg) p).blks ++
            [⟨[], p.blks.length⟩]
         defer_ := some (newDefer p.nreg p.blks.length)
         nreg := p.nreg + 6 },
       newDefer p.nreg p.blks.length) := by
  simp only [Builder.getDefer, h, Builder.deferKey, emit_eq, emitCode_emitCode,
    Function.MakeBlock, emitCode_nreg, emitCode_length]
  simp [acquireBuilder, acquireCode, newDefer, Nat.add_assoc]

theorem Defer_cond (b : Builder) (p p1 : Function) (d : aDefer) (fn : Expr) (args : List Expr)
    (hg : b.getDefer p DoAction.DeferInCond = (p1, d)) :
    b.Defer p DoAction.DeferInCond fn args =
      Outcome.ok
        { blks := (emitCode b (armCode d p1.nreg) p1).blks
          defer_ := some { d with
            nextBit := d.nextBit + 1
            stmts := d.stmts ++
              [⟨DoAction.DeferInCond, fn, args, Expr.uintptr (bitMask d.nextBit)⟩] }
          nreg := p1.nreg + 3 } := by
  simp only [Builder.Defer, hg, emit_eq, emitCode_emitCode, emitCode_nreg]
  simp [armCode, emitCode, Nat.add_assoc]

theorem Defer_always (b : Builder) (p p1 : Function) (d : aDefer) (fn : Expr) (args : List Expr)
    (hg : b.getDefer p DoAction.DeferAlways = (p1, d)) :
    b.Defer p DoAction.DeferAlways fn args =
      Outcome.ok
        { p1 with
          defer_ := some { d with
            stmts := d.stmts ++ [⟨DoAction.DeferAlways, fn, args, Expr.nil⟩] } } := by
  simp only [Builder.Defer, hg]

theorem Defer_other (b : Builder) (p : Function) (kind : DoAction) (fn : Expr)
    (args : List Expr) (h1 : kind ≠ DoAction.DeferInCond) (h2 : kind ≠ DoAction.DeferAlways) :
    b.Defer p kind fn args =
      Outcome.panicked "todo: DeferInLoop is not supported" (b.getDefer p kind).1 := by
  cases kind <;> simp_all [Builder.Defer]

theorem RunDefers_eq (b : Builder) (p p1 : Function) (d : aDefer)
    (hg : b.getDefer p DoAction.DeferInCond = (p1, d)) :
    b.RunDefers p =
      (⟨b.blk, p1.blks.length, InsertPoint.AtEnd⟩,
       { blks := updBlock (fun B => { B with last := p1.blks.length }) b.blk
            ((emitCode b (exitCode d p1.nreg) p1).blks ++ [⟨[], p1.blks.length⟩])
         defer_ := some { d with runsNext := d.runsNext ++ [p1.blks.length] }
         nreg := p1.nreg + 2 }) := by
  simp only [Builder.RunDefers, hg, emit_eq, emitCode_emitCode, emitCode_nreg,
    Function.MakeBlock, emitCode_length, Builder.SetBlockEx, Function.setLast, blockLast]
  simp [exitCode, emitCode, Nat.add_assoc, updBlock_length]

theorem stmt_run_eq (st : DeferStmt) (bits : Expr) (b : Builder) (p : Function) :
    st.run bits b p = emitCode b (stmtCode st bits p.nreg) p := by
  cases hk : st.kind <;>
    simp [DeferStmt.run, stmtCode, hk, emit_eq, emitCode_emitCode, Nat.add_assoc]

theorem runStmts_eq (stmts : List DeferStmt) (bits : Expr) (b : Builder) (k : Nat)
    (hk : k ≤ stmts.length) (p : Function) :
    runStmts stmts bits b k p = emitCode b (thunksCode bits (stmts.take k).reverse p.nreg) p := by
  induction k generalizing p with
  | zero => simp [runStmts, thunksCode]
  | succ i ih =>
    have hi : i < stmts.length := hk
    have hget : stmts[i]? = some stmts[i] := List.getElem?_eq_getElem hi
    have htake : (stmts.take (i + 1)).reverse = stmts[i] :: (stmts.take i).reverse := by
      rw [List.take_succ, hget]; simp
    simp only [runStmts, hget, htake, thunksCode]
    rw [ih (Nat.le_of_lt hi), stmt_run_eq, emitCode_emitCode]
    simp

theorem endDefer_eq (p : Function) (b : Builder) (d : aDefer) (r : Nat) (rs : List Nat)
    (hd : p.defer_ = some d) (hr : d.runsNext = r :: rs) :
    p.endDefer b =
      (⟨d.procBlk, blockLast p d.procBlk, InsertPoint.AtEnd⟩,
       emitCode ⟨d.procBlk, blockLast p d.procBlk, InsertPoint.AtEnd⟩
         (trampolineCode d r p.nreg) p) := by
  simp only [Function.endDefer, hd, hr, emit_eq, Builder.SetBlockEx]
  rw [runStmts_eq _ _ _ _ (Nat.le_refl _)]
  simp only [emitCode_emitCode, emitCode_nreg, List.take_length]
  simp [trampolineCode, restoreCode, hr, Nat.add_assoc, Nat.add_comm, Nat.add_left_comm]

theorem endDefer_none (p : Function) (b : Builder) (hd : p.defer_ = none) :
    p.endDefer b = (b, p) := by
  simp [Function.endDefer, hd]

theorem endDefer_empty (p : Function) (b : Builder) (d : aDefer)
    (hd : p.defer_ = some d) (hr : d.runsNext = []) : p.endDefer b = (b, p) := by
  simp [Function.endDefer, hd, hr]

/-! ## The invariant of a pass -/

theorem procBlk_lt {s : BuildState} {d : aDefer} (h : Inv s d) :
    d.procBlk < s.p.blks.length := by
  have := h.hproc
  by_contra hc
  rw [List.getElem?_eq_none (Nat.le_of_not_lt hc)] at this
  cases this

theorem acquireBuilder_ip (s : BuildState) (kind : DoAction) (h : Fresh s) :
    (acquireBuilder s.b s.p kind).ipBlk < s.p.blks.length := by
  obtain ⟨_, hb, hi, hl⟩ := h
  unfold acquireBuilder
  split
  · simp only [Function.deferInitBuilder, Builder.SetBlockEx, blockLast]
    have h0 : 0 < s.p.blks.length := Nat.lt_of_le_of_lt (Nat.zero_le _) hb
    rw [List.getElem?_eq_getElem h0]
    exact hl _ (List.getElem_mem _)
  · exact hi

theorem getDefer_inv_fresh (s : BuildState) (kind : DoAction) (h : Fresh s) :
    Inv ⟨s.b, (s.b.getDefer s.p kind).1⟩ (newDefer s.p.nreg s.p.blks.length) ∧
      (s.b.getDefer s.p kind).2 = newDefer s.p.nreg s.p.blks.length := by
  obtain ⟨hn, hb, hi, hl⟩ := h
  rw [getDefer_none _ _ _ hn]
  refine ⟨?_, rfl⟩
  constructor
  · rfl
  · simp; omega
  · simp; omega
  · simp [newDefer]
  · simp [newDefer]; omega
  · simp [newDefer]; omega
  · simp [newDefer]
  · simp [newDefer]
  · exact ⟨s.p.nreg + 2, rfl, by simp⟩

theorem getDefer_inv (s : BuildState) (d : aDefer) (kind : DoAction) (h : Inv s d) :
    s.b.getDefer s.p kind = (s.p, d) := getDefer_some _ _ _ _ h.hd

theorem allInstrs_setLast_append (bs : List Block) (k v n : Nat) :
    ((updBlock (fun B => { B with last := v }) k (bs ++ [⟨[], n⟩])).map
      (fun B => B.instrs)).flatten = (bs.map (fun B => B.instrs)).flatten := by
  have h : ∀ (k : Nat) (cs : List Block),
      (updBlock (fun B => { B with last := v }) k cs).map (fun B => B.instrs) =
        cs.map (fun B => B.instrs) := by
    intro k cs
    induction cs generalizing k with
    | nil => simp [updBlock]
    | cons B cs ih => cases k <;> simp [updBlock, ih]
  rw [h]
  simp

theorem step_inv (s s1 : BuildState) (d : aDefer) (op : Op) (h : Inv s d)
    (hs : step s op = Outcome.ok s1) :
    ∃ d1, Inv s1 d1 ∧
      (d1.key = d.key ∧ d1.data = d.data ∧ d1.bitsPtr = d.bitsPtr ∧ d1.rundPtr = d.rundPtr ∧
        d1.procBlk = d.procBlk) ∧
      d1.stmts = d.stmts ++ stmtsFrom d.nextBit [op] ∧
      d1.nextBit = d.nextBit + condCount [op] ∧
      d1.runsNext = d.runsNext ++ List.range' s.p.blks.length (runCount [op]) ∧
      s1.p.blks.length = s.p.blks.length + runCount [op] ∧
      s1.p.allInstrs.Perm (s.p.allInstrs ++ stepCode d s.p.nreg op) ∧
      s1.p.nreg = s.p.nreg + (stepCode d s.p.nreg op).length := by
  have hpl := procBlk_lt h
  obtain ⟨di, hdi, hdl⟩ := h.hdata
  cases op with
  | defer kind fn args =>
    have hg := getDefer_inv s d kind h
    by_cases hc : kind = DoAction.DeferInCond
    · subst hc
      simp only [step, Defer_cond _ _ _ _ _ _ hg] at hs
      cases hs
      refine ⟨_, ⟨rfl, ?_, ?_, ?_, h.hipne, h.hblkne, ?_, h.hnodup, ⟨di, hdi, by simp; omega⟩⟩,
        ⟨rfl, rfl, rfl, rfl, rfl⟩,
        ?_, ?_, ?_, ?_, ?_, ?_⟩
      · simpa using h.hblk
      · simpa using h.hip
      · simp [emitCode_getElem?, h.hipne, h.hproc]
      · simpa using h.hruns
      · simp [stmtsFrom]
      · simp [condCount]
      · simp [runCount]
      · simp [runCount]
      · exact emitCode_allInstrs _ _ _ h.hip
      · simp [stepCode, armCode]
    · by_cases ha : kind = DoAction.DeferAlways
      · subst ha
        simp only [step, Defer_always _ _ _ _ _ _ hg] at hs
        cases hs
        refine ⟨_, ⟨rfl, h.hblk, h.hip, h.hproc, h.hipne, h.hblkne, h.hruns, h.hnodup, h.hdata⟩,
          ⟨rfl, rfl, rfl, rfl, rfl⟩, ?_, ?_, ?_, ?_, ?_, ?_⟩
        · simp [stmtsFrom]
        · simp [condCount]
        · simp [runCount]
        · simp [runCount]
        · simp [stepCode, Function.allInstrs]
        · simp [stepCode]
      · simp [step, Defer_other _ _ _ _ _ hc ha] at hs
  | runDefers =>
    have hg := getDefer_inv s d DoAction.DeferInCond h
    simp only [step, RunDefers_eq _ _ _ _ hg] at hs
    cases hs
    have hb := h.hblk
    have hi := h.hip
    refine ⟨_, ⟨rfl, ?_, ?_, ?_, ?_, h.hblkne, ?_, ?_, ⟨di, hdi, by simp; omega⟩⟩,
      ⟨rfl, rfl, rfl, rfl, rfl⟩,
      ?_, ?_, ?_, ?_, ?_, ?_⟩
    · simp [updBlock_length]; omega
    · simp [updBlock_length]
    · simp only [updBlock_getElem?, if_neg h.hblkne]
      rw [List.getElem?_append_left (by simpa using hpl)]
      simp [emitCode_getElem?, h.hipne, h.hproc]
    · simp; omega
    · intro k hk
      simp only [List.mem_append, List.mem_singleton] at hk
      simp only [updBlock_length, List.length_append, emitCode_length, List.length_singleton]
      rcases hk with hk | hk
      · have := h.hruns k hk
        exact ⟨by omega, this.2⟩
      · subst hk
        exact ⟨by omega, by omega⟩
    · simp only [List.nodup_append, h.hnodup, List.nodup_singleton, true_and]
      intro a ha
      simp only [List.mem_singleton]
      intro hb1
      subst hb1
      have := (h.hruns _ ha).1
      omega
    · simp [stmtsFrom]
    · simp [condCount]
    · simp [runCount, List.range']
    · simp [runCount, updBlock_length]
    · simp only [Function.allInstrs, allInstrs_setLast_append]
      exact emitCode_allInstrs _ _ _ h.hip
    · simp [stepCode, exitCode]

theorem stmtsFrom_cons (next : Nat) (o : Op) (os : List Op) :
    stmtsFrom next (o :: os) = stmtsFrom next [o] ++ stmtsFrom (next + condCount [o]) os := by
  cases o with
  | defer kind fn args => cases kind <;> simp [stmtsFrom, condCount]
  | runDefers => simp [stmtsFrom, condCount]

theorem condCount_cons (o : Op) (os : List Op) :
    condCount (o :: os) = condCount [o] + condCount os := by
  simp [condCount, List.countP_cons, Nat.add_comm]

theorem runCount_cons (o : Op) (os : List Op) :
    runCount (o :: os) = runCount [o] + runCount os := by
  simp [runCount, List.countP_cons, Nat.add_comm]

theorem stepCode_noChain (d : aDefer) (n : Nat) (op : Op) :
    ∀ i ∈ stepCode d n op, isChainOp i.op = false := by
  cases op with
  | defer kind fn args => cases kind <;> simp [stepCode, armCode, isChainOp]
  | runDefers => simp [stepCode, exitCode, isChainOp]

theorem runOps_inv (ops : List Op) (s s1 : BuildState) (d : aDefer) (h : Inv s d)
    (hr : runOps ops s = Outcome.ok s1) :
    ∃ d1, Inv s1 d1 ∧
      (d1.key = d.key ∧ d1.data = d.data ∧ d1.bitsPtr = d.bitsPtr ∧ d1.rundPtr = d.rundPtr ∧
        d1.procBlk = d.procBlk) ∧
      d1.stmts = d.stmts ++ stmtsFrom d.nextBit ops ∧
      d1.nextBit = d.nextBit + condCount ops ∧
      d1.runsNext = d.runsNext ++ List.range' s.p.blks.length (runCount ops) ∧
      s1.p.blks.length = s.p.blks.length + runCount ops ∧
      s.p.nreg ≤ s1.p.nreg ∧
      ∃ extra, s1.p.allInstrs.Perm (s.p.allInstrs ++ extra) ∧
        ∀ i ∈ extra, isChainOp i.op = false := by
  induction ops generalizing s d with
  | nil =>
    simp only [runOps, Outcome.ok.injEq] at hr
    subst hr
    exact ⟨d, h, ⟨rfl, rfl, rfl, rfl, rfl⟩, by simp [stmtsFrom], by simp [condCount],
      by simp [runCount], by simp [runCount], Nat.le_refl _, [], by simp, by simp⟩
  | cons o os ih =>
    simp only [runOps] at hr
    cases hst : step s o with
    | panicked msg p => simp [hst] at hr
    | ok s2 =>
      simp only [hst] at hr
      obtain ⟨d2, h2, hf2, hs2, hn2, hr2, hl2, hp2, hg2⟩ := step_inv s s2 d o h hst
      obtain ⟨d1, h1, hf1, hs1, hn1, hr1, hl1, hg1, extra, hp1, hx1⟩ := ih s2 d2 h2 hr
      refine ⟨d1, h1, ?_, ?_, ?_, ?_, ?_, ?_, stepCode d s.p.nreg o ++ extra, ?_, ?_⟩
      · obtain ⟨a1, a2, a3, a4, a5⟩ := hf1
        obtain ⟨b1, b2, b3, b4, b5⟩ := hf2
        exact ⟨a1.trans b1, a2.trans b2, a3.trans b3, a4.trans b4, a5.trans b5⟩
      · rw [hs1, hs2, hn2, stmtsFrom_cons d.nextBit o os, List.append_assoc]
      · rw [hn1, hn2, condCount_cons o os, Nat.add_assoc]
      · rw [hr1, hr2, hl2, runCount_cons o os, List.append_assoc, List.range'_append_1,
          Nat.add_comm (runCount os)]
      · rw [hl1, hl2, runCount_cons o os, Nat.add_assoc]
      · omega
      · refine hp1.trans ?_
        rw [← List.append_assoc]
        exact hp2.append_right extra
      · intro i hi
        rcases List.mem_append.1 hi with hi | hi
        · exact stepCode_noChain _ _ _ i hi
        · exact hx1 i hi

theorem getDefer_idem (b b1 : Builder) (p : Function) (kind kind1 : DoAction) :
    b1.getDefer (b.getDefer p kind).1 kind1 = b.getDefer p kind := by
  cases hd : p.defer_ with
  | some d => rw [getDefer_some _ _ _ _ hd, getDefer_some _ _ _ _ hd]
  | none => rw [getDefer_none _ _ _ hd]; exact getDefer_some _ _ _ _ rfl

theorem Defer_acquire (b : Builder) (p : Function) (kind : DoAction) (fn : Expr)
    (args : List Expr) :
    b.Defer (b.getDefer p kind).1 kind fn args = b.Defer p kind fn args := by
  have hg : b.getDefer p kind = ((b.getDefer p kind).1, (b.getDefer p kind).2) := rfl
  have hg1 : b.getDefer (b.getDefer p kind).1 kind =
      ((b.getDefer p kind).1, (b.getDefer p kind).2) := getDefer_idem b b p kind kind
  by_cases hc : kind = DoAction.DeferInCond
  · subst hc
    rw [Defer_cond _ _ _ _ _ _ hg, Defer_cond _ _ _ _ _ _ hg1]
  · by_cases ha : kind = DoAction.DeferAlways
    · subst ha
      rw [Defer_always _ _ _ _ _ _ hg, Defer_always _ _ _ _ _ _ hg1]
    · rw [Defer_other _ _ _ _ _ hc ha, Defer_other _ _ _ _ _ hc ha, getDefer_idem]

theorem RunDefers_acquire (b : Builder) (p : Function) :
    b.RunDefers (b.getDefer p DoAction.DeferInCond).1 = b.RunDefers p := by
  have hg : b.getDefer p DoAction.DeferInCond =
    ((b.getDefer p DoAction.DeferInCond).1, (b.getDefer p DoAction.DeferInCond).2) := rfl
  have hg1 : b.getDefer (b.getDefer p DoAction.DeferInCond).1 DoAction.DeferInCond =
      ((b.getDefer p DoAction.DeferInCond).1, (b.getDefer p DoAction.DeferInCond).2) :=
    getDefer_idem b b p DoAction.DeferInCond DoAction.DeferInCond
  rw [RunDefers_eq _ _ _ _ hg, RunDefers_eq _ _ _ _ hg1]

theorem step_acquire (s : BuildState) (op : Op) :
    step ⟨s.b, (s.b.getDefer s.p (opKind op)).1⟩ op = step s op := by
  cases op with
  | defer kind fn args => simp only [step, opKind, Defer_acquire]
  | runDefers => simp only [step, opKind, RunDefers_acquire]

theorem acquire_facts (s : BuildState) (kind : DoAction) (h : Fresh s) :
    (s.b.getDefer s.p kind).1.allInstrs.Perm (s.p.allInstrs ++ acquireCode s.p.nreg) ∧
      (s.b.getDefer s.p kind).1.blks.length = s.p.blks.length + 1 ∧
      (s.b.getDefer s.p kind).1.nreg = s.p.nreg + 6 := by
  have hip := acquireBuilder_ip s kind h
  rw [getDefer_none _ _ _ h.1]
  refine ⟨?_, by simp, rfl⟩
  have := emitCode_allInstrs (acquireBuilder s.b s.p kind) (acquireCode s.p.nreg) s.p hip
  simpa [Function.allInstrs] using this

theorem runOps_fresh (o : Op) (os : List Op) (s s1 : BuildState) (h : Fresh s)
    (hr : runOps (o :: os) s = Outcome.ok s1) :
    ∃ d1, Inv s1 d1 ∧
      (d1.key = Expr.reg s.p.nreg ∧ d1.data = Expr.reg (s.p.nreg + 2) ∧
        d1.bitsPtr = Expr.reg (s.p.nreg + 4) ∧ d1.rundPtr = Expr.reg (s.p.nreg + 5) ∧
        d1.procBlk = s.p.blks.length) ∧
      d1.stmts = stmtsFrom 0 (o :: os) ∧
      d1.nextBit = condCount (o :: os) ∧
      d1.runsNext = List.range' (s.p.blks.length + 1) (runCount (o :: os)) ∧
      s1.p.blks.length = s.p.blks.length + 1 + runCount (o :: os) ∧
      s.p.nreg + 6 ≤ s1.p.nreg ∧
      ∃ extra, s1.p.allInstrs.Perm (s.p.allInstrs ++ acquireCode s.p.nreg ++ extra) ∧
        ∀ i ∈ extra, isChainOp i.op = false := by
  obtain ⟨hinv, -⟩ := getDefer_inv_fresh s (opKind o) h
  obtain ⟨hperm, hlen, hnreg⟩ := acquire_facts s (opKind o) h
  have hr1 : runOps (o :: os) ⟨s.b, (s.b.getDefer s.p (opKind o)).1⟩ = Outcome.ok s1 := by
    simp only [runOps, step_acquire]
    simpa only [runOps] using hr
  obtain ⟨d1, h1, hf, hs, hn, hrn, hl, hg, extra, hp, hx⟩ := runOps_inv _ _ _ _ hinv hr1
  refine ⟨d1, h1, ?_, ?_, ?_, ?_, ?_, ?_, extra, ?_, hx⟩
  · simpa [newDefer] using hf
  · simpa [newDefer] using hs
  · simpa [newDefer] using hn
  · simpa [newDefer, hlen] using hrn
  · simpa [hlen] using hl
  · simpa [hnreg] using hg
  · exact hp.trans (hperm.append_right extra)

/-! ## The trampoline -/

theorem finish_inv (s : BuildState) (d : aDefer) (r : Nat) (rs : List Nat) (h : Inv s d)
    (hr : d.runsNext = r :: rs) :
    (finish s).p.defer_ = some d ∧
      (finish s).p.instrsOf d.procBlk = trampolineCode d r s.p.nreg ∧
      (∀ k, k ≠ d.procBlk → (finish s).p.instrsOf k = s.p.instrsOf k) ∧
      (finish s).p.allInstrs.Perm (s.p.allInstrs ++ trampolineCode d r s.p.nreg) ∧
      (finish s).p.blks.length = s.p.blks.length := by
  have hbl : blockLast s.p d.procBlk = d.procBlk := by simp [blockLast, h.hproc]
  have hpl := procBlk_lt h
  simp only [finish, endDefer_eq _ _ _ _ _ h.hd hr, hbl]
  refine ⟨h.hd, ?_, ?_, ?_, by simp⟩
  · rw [emitCode_instrsOf]
    simp [hpl, foldl_insertInstr_atEnd, Function.instrsOf, h.hproc]
  · intro k hk
    rw [emitCode_instrsOf]
    simp [Ne.symm hk]
  · exact emitCode_allInstrs _ _ _ hpl

theorem thunkCalls_append (xs ys : List Instr) :
    thunkCalls (xs ++ ys) = thunkCalls xs ++ thunkCalls ys := by
  simp [thunkCalls, List.filterMap_append]

theorem thunkCalls_thunksCode (bits : Expr) (sts : List DeferStmt) (n : Nat)
    (hk : ∀ st ∈ sts, st.kind = DoAction.DeferInCond ∨ st.kind = DoAction.DeferAlways) :
    thunkCalls (thunksCode bits sts n) = sts.map stmtView := by
  induction sts generalizing n with
  | nil => simp [thunksCode, thunkCalls]
  | cons st sts ih =>
    have ih1 := ih (n + (stmtCode st bits n).length) (fun x hx => hk x (List.mem_cons_of_mem _ hx))
    simp only [thunksCode, thunkCalls_append, ih1, List.map_cons]
    rcases hk st (List.mem_cons_self _ _) with h | h <;>
      simp [stmtCode, h, thunkCalls, stmtView]

theorem thunkCalls_trampolineCode (d : aDefer) (r n : Nat)
    (hk : ∀ st ∈ d.stmts, st.kind = DoAction.DeferInCond ∨ st.kind = DoAction.DeferAlways) :
    thunkCalls (trampolineCode d r n) = (d.stmts.map stmtView).reverse := by
  have h1 := thunkCalls_thunksCode (Expr.reg n) d.stmts.reverse (n + 1)
    (fun st hst => hk st (List.mem_reverse.1 hst))
  have h2 : ∀ m, thunkCalls (restoreCode d r m) = [] := by
    intro m; simp [restoreCode, thunkCalls]
  have h3 : trampolineCode d r n =
      [⟨n, Opcode.load d.bitsPtr⟩] ++ thunksCode (Expr.reg n) d.stmts.reverse (n + 1) ++
        restoreCode d r (n + 1 + (thunksCode (Expr.reg n) d.stmts.reverse (n + 1)).length) := by
    simp [trampolineCode]
  rw [h3, thunkCalls_append, thunkCalls_append, h1, h2]
  simp [thunkCalls, List.map_reverse]

theorem stmtsFrom_kind (next : Nat) (ops : List Op) :
    ∀ st ∈ stmtsFrom next ops,
      st.kind = DoAction.DeferInCond ∨ st.kind = DoAction.DeferAlways := by
  induction ops generalizing next with
  | nil => simp [stmtsFrom]
  | cons o os ih =>
    intro st hst
    rw [stmtsFrom_cons] at hst
    rcases List.mem_append.1 hst with h | h
    · cases o with
      | defer kind fn args =>
        cases kind <;> simp [stmtsFrom] at h
        · right; rw [h]
        · left; rw [h]
      | runDefers => simp [stmtsFrom] at h
    · exact ih _ st h

theorem step_ok_kind (s s1 : BuildState) (o : Op) (h : step s o = Outcome.ok s1) :
    opKind o = DoAction.DeferInCond ∨ opKind o = DoAction.DeferAlways := by
  cases o with
  | runDefers => left; rfl
  | defer kind fn args =>
    by_cases hc : kind = DoAction.DeferInCond
    · left; exact hc
    · by_cases ha : kind = DoAction.DeferAlways
      · right; exact ha
      · simp [step, Defer_other _ _ _ _ _ hc ha] at h

theorem runOps_ok_kind (ops : List Op) (s s1 : BuildState) (h : runOps ops s = Outcome.ok s1) :
    ∀ o ∈ ops, opKind o = DoAction.DeferInCond ∨ opKind o = DoAction.DeferAlways := by
  induction ops generalizing s with
  | nil => simp
  | cons o os ih =>
    simp only [runOps] at h
    cases hst : step s o with
    | panicked msg p => simp [hst] at h
    | ok s2 =>
      simp only [hst] at h
      intro x hx
      rcases List.mem_cons.1 hx with hx | hx
      · subst hx; exact step_ok_kind _ _ _ hst
      · exact ih s2 h x hx

theorem stmtsFrom_view (next : Nat) (ops : List Op)
    (hk : ∀ o ∈ ops, opKind o = DoAction.DeferInCond ∨ opKind o = DoAction.DeferAlways) :
    (stmtsFrom next ops).map stmtView = registrations ops := by
  induction ops generalizing next with
  | nil => simp [stmtsFrom, registrations]
  | cons o os ih =>
    have ih1 := fun n => ih n (fun x hx => hk x (List.mem_cons_of_mem _ hx))
    have ho := hk o (List.mem_cons_self _ _)
    cases o with
    | runDefers =>
      simp only [stmtsFrom, ih1]
      simp [registrations]
    | defer kind fn args =>
      simp only [opKind] at ho
      rcases ho with ho | ho <;> subst ho
      · simp only [stmtsFrom, List.map_cons, ih1]
        simp [registrations, stmtView]
      · simp only [stmtsFrom, List.map_cons, ih1]
        simp [registrations, stmtView]

/-! ## Order of the thunks, empty table (C1, C9) -/

/-- C1: after any successful sequence of registrations and at least one
`RunDefers`, the trampoline emitted by `endDefer` contains the registered
thunks exactly once each and in reverse registration order, wherever and
however often `RunDefers` was called; `endDefer` touches no other block. -/
theorem C1_thunks_once_in_reverse_order (s0 s : BuildState) (ops : List Op)
    (h0 : Fresh s0) (hr : runOps ops s0 = Outcome.ok s) (hrun : 1 ≤ runCount ops) :
    thunkCalls (finish s).p.trampoline = (registrations ops).reverse ∧
      ∀ d, (finish s).p.defer_ = some d →
        ∀ k, k ≠ d.procBlk → (finish s).p.instrsOf k = s.p.instrsOf k := by
  cases ops with
  | nil => simp [runCount] at hrun
  | cons o os =>
    obtain ⟨d, hinv, -, hst, -, hrn, -, -, -⟩ := runOps_fresh o os s0 s h0 hr
    obtain ⟨c, hc⟩ : ∃ c, runCount (o :: os) = c + 1 := ⟨runCount (o :: os) - 1, by omega⟩
    rw [hc, List.range'_succ] at hrn
    obtain ⟨hd, htr, hoth, -, -⟩ := finish_inv s d _ _ hinv hrn
    refine ⟨?_, ?_⟩
    · simp only [Function.trampoline, hd, htr]
      rw [thunkCalls_trampolineCode _ _ _ (by rw [hst]; exact stmtsFrom_kind _ _), hst,
        stmtsFrom_view _ _ (runOps_ok_kind _ _ _ hr)]
    · intro d1 hd1 k hk
      rw [hd] at hd1
      cases hd1
      exact hoth k hk

/-- The example pass: its trampoline runs the three thunks, last registered first. -/
theorem C1_witness :
    Fresh exStart ∧
      thunkCalls (finish (okState exStart (runOps exOps exStart))).p.trampoline =
        [(DoAction.DeferInCond, Expr.ext 4, []), (DoAction.DeferInCond, Expr.ext 2, [Expr.ext 3]),
         (DoAction.DeferAlways, Expr.ext 1, [])] :=
  ⟨by decide,
   (C1_thunks_once_in_reverse_order exStart (okState exStart (runOps exOps exStart)) exOps
      (by decide) rfl (by decide)).1⟩

/-- C9: when the resume-point table is empty (no record, or registrations
without any `RunDefers`), `endDefer` returns the function and the builder
unchanged: no instruction added, no thunk run, no block touched. -/
theorem C9_no_trampoline_when_table_empty (p : Function) (b : Builder)
    (h : runsOf p = []) : p.endDefer b = (b, p) := by
  cases hd : p.defer_ with
  | none => exact endDefer_none p b hd
  | some d =>
    refine endDefer_empty p b d hd ?_
    simpa [runsOf, hd] using h

/-- After two registrations and no exit point, `endDefer` changes nothing. -/
theorem C9_witness :
    runsOf (okState exStart (runOps (exOps.take 2) exStart)).p = [] ∧
      stmtsOf (okState exStart (runOps (exOps.take 2) exStart)).p ≠ [] ∧
      (okState exStart (runOps (exOps.take 2) exStart)).p.endDefer exStart.b =
        (exStart.b, (okState exStart (runOps (exOps.take 2) exStart)).p) :=
  ⟨by decide, by decide,
   C9_no_trampoline_when_table_empty _ _ (by decide)⟩

/-! ## The loop-scoped kind (C5, C6) -/

/-- C5: for every kind other than `DeferInCond` and `DeferAlways`, in every
state of the function, `Defer` panics; at that moment the registration list
and the next-bit counter are what they were before the call. -/
theorem C5_loop_kind_panics_without_registration (b : Builder) (p : Function)
    (kind : DoAction) (fn : Expr) (args : List Expr)
    (h1 : kind ≠ DoAction.DeferInCond) (h2 : kind ≠ DoAction.DeferAlways) :
    isPanic (b.Defer p kind fn args) = true ∧
      stmtsOf (deferFn (b.Defer p kind fn args)) = stmtsOf p ∧
      nextBitOf (deferFn (b.Defer p kind fn args)) = nextBitOf p := by
  rw [Defer_other _ _ _ _ _ h1 h2]
  refine ⟨rfl, ?_, ?_⟩
  · cases hd : p.defer_ with
    | some d => rw [getDefer_some _ _ _ _ hd]; rfl
    | none => rw [getDefer_none _ _ _ hd]; simp [deferFn, stmtsOf, hd, newDefer]
  · cases hd : p.defer_ with
    | some d => rw [getDefer_some _ _ _ _ hd]; rfl
    | none => rw [getDefer_none _ _ _ hd]; simp [deferFn, nextBitOf, hd, newDefer]

/-- A loop-scoped registration after two registrations panics and registers nothing. -/
theorem C5_witness :
    isPanic (exRegistered.b.Defer exRegistered.p DoAction.DeferInLoop (Expr.ext 5) []) = true ∧
      stmtsOf (deferFn (exRegistered.b.Defer exRegistered.p DoAction.DeferInLoop (Expr.ext 5) []))
        = stmtsOf exRegistered.p ∧
      nextBitOf (deferFn (exRegistered.b.Defer exRegistered.p DoAction.DeferInLoop (Expr.ext 5) []))
        = nextBitOf exRegistered.p :=
  C5_loop_kind_panics_without_registration exRegistered.b exRegistered.p DoAction.DeferInLoop
    (Expr.ext 5) [] (by decide) (by decide)

/-- C6, as stated, fails: a loop-scoped `Defer` that is the first
defer-related call of a function panics only after `getDefer` has put six
instructions into the entry block, added the trampoline block and set the
defer state. -/
theorem C6_counterexample :
    exStart.p.defer_ = none ∧
      isPanic (exStart.b.Defer exStart.p DoAction.DeferInLoop (Expr.ext 5) []) = true ∧
      (deferFn (exStart.b.Defer exStart.p DoAction.DeferInLoop (Expr.ext 5) [])).instrsOf 0 =
        [⟨0, Opcode.load (Expr.ext 9)⟩] ++ acquireCode 2 ++ [⟨1, Opcode.jump 1⟩] ∧
      (deferFn (exStart.b.Defer exStart.p DoAction.DeferInLoop (Expr.ext 5) [])).blks.length =
        exStart.p.blks.length + 1 ∧
      (deferFn (exStart.b.Defer exStart.p DoAction.DeferInLoop (Expr.ext 5) [])).defer_ ≠
        exStart.p.defer_ := by
  decide

/-- C6, amended: a loop-scoped `Defer` on a function whose record exists
leaves the function exactly as it was (no instruction, same defer state);
as the first defer-related call it leaves what `getDefer` did before the
panic, and nothing else: the six acquisition instructions, one new empty
block, and a defer state without thunk, bit or resume point. -/
theorem C6_loop_kind_emits_only_acquisition (b : Builder) (p : Function) (kind : DoAction)
    (fn : Expr) (args : List Expr)
    (h1 : kind ≠ DoAction.DeferInCond) (h2 : kind ≠ DoAction.DeferAlways) :
    isPanic (b.Defer p kind fn args) = true ∧
      (p.defer_ ≠ none → deferFn (b.Defer p kind fn args) = p) ∧
      (Fresh ⟨b, p⟩ →
        (deferFn (b.Defer p kind fn args)).allInstrs.Perm (p.allInstrs ++ acquireCode p.nreg) ∧
        (deferFn (b.Defer p kind fn args)).blks.length = p.blks.length + 1 ∧
        (deferFn (b.Defer p kind fn args)).instrsOf p.blks.length = [] ∧
        (deferFn (b.Defer p kind fn args)).defer_ = some (newDefer p.nreg p.blks.length)) := by
  rw [Defer_other _ _ _ _ _ h1 h2]
  refine ⟨rfl, ?_, ?_⟩
  · intro hd
    cases hd1 : p.defer_ with
    | none => exact absurd hd1 hd
    | some d => rw [getDefer_some _ _ _ _ hd1]; rfl
  · intro hf
    obtain ⟨hperm, hlen, -⟩ := acquire_facts ⟨b, p⟩ kind hf
    obtain ⟨hinv, -⟩ := getDefer_inv_fresh ⟨b, p⟩ kind hf
    refine ⟨hperm, hlen, ?_, hinv.hd⟩
    have := hinv.hproc
    simp only [newDefer] at this
    simp [deferFn, Function.instrsOf, this]

/-- A loop-scoped registration leaves a function with a record untouched, and a fresh one with the new defer state only. -/
theorem C6_witness :
    (exRegistered.p.defer_ ≠ none ∧
      deferFn (exRegistered.b.Defer exRegistered.p DoAction.DeferInLoop (Expr.ext 5) []) =
        exRegistered.p) ∧
    (Fresh exStart ∧
      (deferFn (exStart.b.Defer exStart.p DoAction.DeferInLoop (Expr.ext 5) [])).defer_ =
        some (newDefer 2 2)) :=
  ⟨⟨by decide,
    (C6_loop_kind_emits_only_acquisition exRegistered.b exRegistered.p DoAction.DeferInLoop
      (Expr.ext 5) [] (by decide) (by decide)).2.1 (by decide)⟩,
   ⟨by decide,
    ((C6_loop_kind_emits_only_acquisition exStart.b exStart.p DoAction.DeferInLoop
      (Expr.ext 5) [] (by decide) (by decide)).2.2 (by decide)).2.2.2⟩⟩

/-! ## Bit indices (C7) -/

theorem condMasks_stmtsFrom (next : Nat) (ops : List Op) :
    condMasks (stmtsFrom next ops) =
      (List.range' next (condCount ops)).map (fun j => Expr.uintptr (bitMask j)) := by
  induction ops generalizing next with
  | nil => simp [stmtsFrom, condMasks, condCount]
  | cons o os ih =>
    cases o with
    | runDefers =>
      have : condCount (Op.runDefers :: os) = condCount os := by simp [condCount]
      rw [this, ← ih]; simp [stmtsFrom]
    | defer kind fn args =>
      cases kind with
      | DeferInCond =>
        have : condCount (Op.defer DoAction.DeferInCond fn args :: os) = condCount os + 1 := by
          simp [condCount]
        rw [this, List.range'_succ, List.map_cons, ← ih]
        simp [stmtsFrom, condMasks]
      | DeferAlways =>
        have : condCount (Op.defer DoAction.DeferAlways fn args :: os) = condCount os := by
          simp [condCount]
        rw [this, ← ih]
        simp [stmtsFrom, condMasks]
      | DeferInLoop =>
        have : condCount (Op.defer DoAction.DeferInLoop fn args :: os) = condCount os := by
          simp [condCount]
        rw [this, ← ih]; simp [stmtsFrom]
      | other c =>
        have : condCount (Op.defer (DoAction.other c) fn args :: os) = condCount os := by
          simp [condCount]
        rw [this, ← ih]; simp [stmtsFrom]

theorem runOps_fresh_stmts (ops : List Op) (s0 s : BuildState) (h0 : Fresh s0)
    (hr : runOps ops s0 = Outcome.ok s) :
    stmtsOf s.p = stmtsFrom 0 ops ∧ nextBitOf s.p = condCount ops := by
  cases ops with
  | nil =>
    simp only [runOps, Outcome.ok.injEq] at hr
    subst hr
    simp [stmtsOf, nextBitOf, h0.1, stmtsFrom, condCount]
  | cons o os =>
    obtain ⟨d, hinv, -, hst, hnb, -⟩ := runOps_fresh o os s0 s h0 hr
    simp [stmtsOf, nextBitOf, hinv.hd, hst, hnb]

/-- C7: in every successful sequence of `Defer` and `RunDefers` calls on a
function, the next-bit counter equals the number of conditional
registrations made (unconditional registrations and `RunDefers` calls leave
it alone), the `j`-th conditional registration carries the mask
`uintptr(1 << j)` of bit index `j`, and every registration has its thunk. -/
theorem C7_conditional_registrations_take_successive_bits (s0 s : BuildState) (ops : List Op)
    (h0 : Fresh s0) (hr : runOps ops s0 = Outcome.ok s) :
    nextBitOf s.p = condCount ops ∧
      condMasks (stmtsOf s.p) =
        (List.range (condCount ops)).map (fun j => Expr.uintptr (bitMask j)) ∧
      (stmtsOf s.p).map stmtView = registrations ops := by
  obtain ⟨hs, hn⟩ := runOps_fresh_stmts ops s0 s h0 hr
  refine ⟨hn, ?_, ?_⟩
  · rw [hs, condMasks_stmtsFrom, List.range_eq_range']
  · rw [hs, stmtsFrom_view _ _ (runOps_ok_kind _ _ _ hr)]

/-- The example pass: two conditional registrations, masks 1 and 2. -/
theorem C7_witness :
    Fresh exStart ∧
      nextBitOf (okState exStart (runOps exOps exStart)).p = 2 ∧
      condMasks (stmtsOf (okState exStart (runOps exOps exStart)).p) =
        [Expr.uintptr 1, Expr.uintptr 2] :=
  ⟨by decide,
   (C7_conditional_registrations_take_successive_bits exStart
      (okState exStart (runOps exOps exStart)) exOps (by decide) rfl).1,
   (C7_conditional_registrations_take_successive_bits exStart
      (okState exStart (runOps exOps exStart)) exOps (by decide) rfl).2.1⟩

/-! ## One record per function (C8, C10) -/

theorem step_panicked (s : BuildState) (o : Op) (msg : String) (p : Function)
    (h : step s o = Outcome.panicked msg p) : p = (s.b.getDefer s.p (opKind o)).1 := by
  cases o with
  | runDefers => simp [step] at h
  | defer kind fn args =>
    have hg : s.b.getDefer s.p kind =
      ((s.b.getDefer s.p kind).1, (s.b.getDefer s.p kind).2) := rfl
    by_cases hc : kind = DoAction.DeferInCond
    · subst hc; simp [step, Defer_cond _ _ _ _ _ _ hg] at h
    · by_cases ha : kind = DoAction.DeferAlways
      · subst ha; simp [step, Defer_always _ _ _ _ _ _ hg] at h
      · simp only [step, Defer_other _ _ _ _ _ hc ha, Outcome.panicked.injEq] at h
        exact h.2.symm

theorem runOps_inv_out (ops : List Op) (s : BuildState) (d : aDefer) (h : Inv s d) :
    ∃ extra, (outcomeFn (runOps ops s)).allInstrs.Perm (s.p.allInstrs ++ extra) ∧
      ∀ i ∈ extra, isChainOp i.op = false := by
  induction ops generalizing s d with
  | nil => exact ⟨[], by simp [runOps, outcomeFn], by simp⟩
  | cons o os ih =>
    simp only [runOps]
    cases hst : step s o with
    | panicked msg p =>
      have := step_panicked s o msg p hst
      rw [getDefer_inv s d _ h] at this
      exact ⟨[], by simp [outcomeFn, this], by simp⟩
    | ok s2 =>
      obtain ⟨d2, h2, -, -, -, -, -, hp2, -⟩ := step_inv s s2 d o h hst
      obtain ⟨extra, hp, hx⟩ := ih s2 d2 h2
      refine ⟨stepCode d s.p.nreg o ++ extra, ?_, ?_⟩
      · refine hp.trans ?_
        rw [← List.append_assoc]
        exact hp2.append_right extra
      · intro i hi
        rcases List.mem_append.1 hi with hi | hi
        · exact stepCode_noChain _ _ _ i hi
        · exact hx i hi

theorem thunksCode_noChain (bits : Expr) (sts : List DeferStmt) (n : Nat) :
    ∀ i ∈ thunksCode bits sts n, isChainOp i.op = false := by
  induction sts generalizing n with
  | nil => simp [thunksCode]
  | cons st sts ih =>
    intro i hi
    simp only [thunksCode, List.mem_append] at hi
    rcases hi with hi | hi
    · cases hk : st.kind with
      | DeferAlways =>
        simp only [stmtCode, hk, List.mem_singleton] at hi
        simp [hi, isChainOp]
      | DeferInCond =>
        simp only [stmtCode, hk, List.mem_cons, List.mem_singleton, List.not_mem_nil,
          or_false] at hi
        rcases hi with hi | hi | hi <;> simp [hi, isChainOp]
      | DeferInLoop => simp [stmtCode, hk] at hi
      | other c => simp [stmtCode, hk] at hi
    · exact ih _ i hi

theorem countP_noChain (q : Opcode → Bool) (hq : ∀ op, q op = true → isChainOp op = true)
    (l : List Instr) (hl : ∀ i ∈ l, isChainOp i.op = false) :
    l.countP (fun i => q i.op) = 0 := by
  rw [List.countP_eq_zero]
  intro i hi hqi
  have := hq _ hqi
  rw [hl i hi] at this
  cases this

theorem trampolineCode_counts (q : Opcode → Bool)
    (hq : ∀ op, q op = true → isChainOp op = true) (d : aDefer) (r n : Nat) :
    (trampolineCode d r n).countP (fun i => q i.op) =
      if q (Opcode.pthreadSetspecific d.key
        (Expr.reg (n + 1 + (thunksCode (Expr.reg n) d.stmts.reverse (n + 1)).length + 1)))
      then 1 else 0 := by
  have h3 : trampolineCode d r n =
      [⟨n, Opcode.load d.bitsPtr⟩] ++ thunksCode (Expr.reg n) d.stmts.reverse (n + 1) ++
        restoreCode d r (n + 1 + (thunksCode (Expr.reg n) d.stmts.reverse (n + 1)).length) := by
    simp [trampolineCode]
  have hn : ∀ op, isChainOp op = false → q op = false := by
    intro op hop
    cases hqo : q op with
    | false => rfl
    | true => rw [hq op hqo] at hop; cases hop
  rw [h3, List.countP_append, List.countP_append,
    countP_noChain q hq _ (thunksCode_noChain _ _ _)]
  simp only [restoreCode, List.countP_cons, List.countP_nil, List.countP_singleton]
  simp [hn, isChainOp]

theorem countOps_perm (q : Opcode → Bool) (p : Function) (l : List Instr)
    (h : p.allInstrs.Perm l) : countOps q p = l.countP (fun i => q i.op) :=
  h.countP_eq _

theorem runOps_acquire (o : Op) (os : List Op) (s : BuildState) :
    runOps (o :: os) ⟨s.b, (s.b.getDefer s.p (opKind o)).1⟩ = runOps (o :: os) s := by
  simp only [runOps, step_acquire]

theorem passFn_count (q : Opcode → Bool) (hq : ∀ op, q op = true → isChainOp op = true)
    (s0 : BuildState) (o : Op) (os : List Op) (h0 : Fresh s0)
    (hq2 : ∀ k j, s0.p.nreg + 2 < j → q (Opcode.pthreadSetspecific k (Expr.reg j)) = false) :
    countOps q (passFn (o :: os) s0) =
      countOps q s0.p + (acquireCode s0.p.nreg).countP (fun i => q i.op) := by
  cases hro : runOps (o :: os) s0 with
  | ok s =>
    obtain ⟨d, hinv, -, -, -, -, -, hn, extra, hp, hx⟩ := runOps_fresh o os s0 s h0 hro
    have hs : countOps q s.p =
        countOps q s0.p + (acquireCode s0.p.nreg).countP (fun i => q i.op) := by
      rw [countOps_perm q _ _ hp, List.countP_append, List.countP_append,
        countP_noChain q hq extra hx]
      rfl
    simp only [passFn, hro]
    cases hrn : d.runsNext with
    | nil =>
      simp only [finish, endDefer_empty _ _ _ hinv.hd hrn]
      exact hs
    | cons r rs =>
      obtain ⟨-, -, -, hfp, -⟩ := finish_inv s d r rs hinv hrn
      rw [countOps_perm q _ _ hfp, List.countP_append, trampolineCode_counts q hq,
        hq2 _ _ (by omega)]
      simpa [countOps] using hs
  | panicked msg p =>
    obtain ⟨hinv, -⟩ := getDefer_inv_fresh s0 (opKind o) h0
    obtain ⟨hperm, -, -⟩ := acquire_facts s0 (opKind o) h0
    obtain ⟨extra, hp, hx⟩ := runOps_inv_out (o :: os) _ _ hinv
    rw [runOps_acquire, hro] at hp
    simp only [outcomeFn] at hp
    simp only [passFn, hro]
    rw [countOps_perm q _ _ (hp.trans (hperm.append_right extra)), List.countP_append,
      List.countP_append, countP_noChain q hq extra hx]
    rfl

/-- C8: on a function without record, `getDefer` emits one read of the
thread-local slot, one allocation with flags 0 and the value read as link,
and one write of the new record's address into the slot; any later
`getDefer`, with any builder and kind, returns the same result and leaves
the function untouched; and whatever the sequence of calls, the finished
function has exactly one more allocation, slot read and push of that record
than it started with (none more if no call was made). -/
theorem C8_getDefer_idempotent (s0 : BuildState) (kind kind1 : DoAction) (b1 : Builder)
    (ops : List Op) (h0 : Fresh s0) :
    ((s0.b.getDefer s0.p kind).1.allInstrs.Perm (s0.p.allInstrs ++
        [⟨s0.p.nreg, Opcode.load (Expr.global deferKey)⟩,
         ⟨s0.p.nreg + 1, Opcode.pthreadGetspecific (Expr.reg s0.p.nreg)⟩,
         ⟨s0.p.nreg + 2, Opcode.aggregateAlloca [Expr.uintptr 0, Expr.reg (s0.p.nreg + 1)]⟩,
         ⟨s0.p.nreg + 3,
           Opcode.pthreadSetspecific (Expr.reg s0.p.nreg) (Expr.reg (s0.p.nreg + 2))⟩,
         ⟨s0.p.nreg + 4, Opcode.fieldAddr (Expr.reg (s0.p.nreg + 2)) 0⟩,
         ⟨s0.p.nreg + 5, Opcode.fieldAddr (Expr.reg (s0.p.nreg + 2)) 2⟩]) ∧
      (s0.b.getDefer s0.p kind).1.defer_ = some (s0.b.getDefer s0.p kind).2 ∧
      (s0.b.getDefer s0.p kind).2.data = Expr.reg (s0.p.nreg + 2)) ∧
    b1.getDefer (s0.b.getDefer s0.p kind).1 kind1 = s0.b.getDefer s0.p kind ∧
    (∀ s, runOps ops s0 = Outcome.ok s → ops ≠ [] →
      (b1.getDefer s.p kind1).1 = s.p ∧
      (b1.getDefer s.p kind1).2.data = Expr.reg (s0.p.nreg + 2)) ∧
    countOps isAlloca (passFn ops s0) =
      countOps isAlloca s0.p + (if ops = [] then 0 else 1) ∧
    countOps isTlsRead (passFn ops s0) =
      countOps isTlsRead s0.p + (if ops = [] then 0 else 1) ∧
    countOps (isTlsWriteOf (Expr.reg (s0.p.nreg + 2))) (passFn ops s0) =
      countOps (isTlsWriteOf (Expr.reg (s0.p.nreg + 2))) s0.p + (if ops = [] then 0 else 1) := by
  obtain ⟨hperm, -, -⟩ := acquire_facts s0 kind h0
  obtain ⟨hinv, hd2⟩ := getDefer_inv_fresh s0 kind h0
  refine ⟨⟨hperm, ?_, ?_⟩, getDefer_idem _ _ _ _ _, ?_, ?_⟩
  · rw [hd2]; exact hinv.hd
  · rw [hd2]; rfl
  · intro s hr hne
    cases ops with
    | nil => exact absurd rfl hne
    | cons o os =>
      obtain ⟨d, hi, hf, -⟩ := runOps_fresh o os s0 s h0 hr
      rw [getDefer_some _ _ _ _ hi.hd]
      exact ⟨rfl, hf.2.1⟩
  · cases ops with
    | nil => simp [passFn, runOps, finish, endDefer_none _ _ h0.1]
    | cons o os =>
      simp only [reduceCtorEq, if_false]
      refine ⟨?_, ?_, ?_⟩
      · rw [passFn_count isAlloca (by intro op h; cases op <;> simp_all [isAlloca, isChainOp])
          s0 o os h0 (by intros; rfl)]
        simp [acquireCode, isAlloca]
      · rw [passFn_count isTlsRead (by intro op h; cases op <;> simp_all [isTlsRead, isChainOp])
          s0 o os h0 (by intros; rfl)]
        simp [acquireCode, isTlsRead]
      · rw [passFn_count (isTlsWriteOf (Expr.reg (s0.p.nreg + 2)))
          (by intro op h; cases op <;> simp_all [isTlsWriteOf, isChainOp])
          s0 o os h0 (by intro k j hj; simp [isTlsWriteOf]; omega)]
        simp [acquireCode, isTlsWriteOf]

/-- The example pass allocates, reads the slot and pushes once. -/
theorem C8_witness :
    Fresh exStart ∧
      countOps isAlloca (passFn exOps exStart) = 1 ∧
      countOps isTlsRead (passFn exOps exStart) = 1 ∧
      countOps (isTlsWriteOf (Expr.reg 4)) (passFn exOps exStart) = 1 :=
  ⟨by decide,
   (C8_getDefer_idempotent exStart DoAction.DeferInCond DoAction.DeferAlways exStart.b exOps
      (by decide)).2.2.2⟩

/-- C10, as stated, fails: after a pass that only registers a deferred call
(no `RunDefers`), the function stores its own record into the thread-local
slot once, and `endDefer` emits no trampoline, so there is no restore. -/
theorem C10_counterexample :
    isPanic (runOps [Op.defer DoAction.DeferAlways (Expr.ext 1) []] exStart) = false ∧
      pushes (passFn [Op.defer DoAction.DeferAlways (Expr.ext 1) []] exStart) = 1 ∧
      restores (passFn [Op.defer DoAction.DeferAlways (Expr.ext 1) []] exStart) = 0 ∧
      ¬ (0 < pushes (passFn [Op.defer DoAction.DeferAlways (Expr.ext 1) []] exStart) ↔
          restores (passFn [Op.defer DoAction.DeferAlways (Expr.ext 1) []] exStart) = 1) := by
  decide

theorem isTlsWriteOf_chain (v : Expr) : ∀ op, isTlsWriteOf v op = true → isChainOp op = true := by
  intro op h
  cases op <;> simp_all [isTlsWriteOf, isChainOp]

theorem isTlsWrite_chain : ∀ op, isTlsWrite op = true → isChainOp op = true := by
  intro op h
  cases op <;> simp_all [isTlsWrite, isChainOp]

theorem countOps_writeOf_zero (v : Expr) (p : Function) (h : countOps isTlsWrite p = 0) :
    countOps (isTlsWriteOf v) p = 0 := by
  simp only [countOps, List.countP_eq_zero] at h ⊢
  intro i hi hw
  apply h i hi
  cases hop : i.op <;> simp_all [isTlsWriteOf, isTlsWrite]

/-- C10, amended: on a function that has no thread-local write of its own,
after any successful pass and `endDefer`, the function stores its own record
into the thread-local slot exactly once if any defer-related call was made
(never otherwise), and its trampoline restores the slot exactly once if
`RunDefers` was called at least once (never otherwise); so a restore always
comes with exactly one push, while registrations without `RunDefers` leave a
push without restore. -/
theorem C10_push_and_restore_counts (s0 s : BuildState) (ops : List Op) (h0 : Fresh s0)
    (hw : countOps isTlsWrite s0.p = 0) (hr : runOps ops s0 = Outcome.ok s) :
    pushes (finish s).p = (if ops = [] then 0 else 1) ∧
      restores (finish s).p = (if runCount ops = 0 then 0 else 1) := by
  cases ops with
  | nil =>
    simp only [runOps, Outcome.ok.injEq] at hr
    subst hr
    simp [finish, endDefer_none _ _ h0.1, pushes, restores, Function.trampoline, h0.1, runCount]
  | cons o os =>
    obtain ⟨d, hinv, hf, -, -, hrn, -, -, -⟩ := runOps_fresh o os s0 s h0 hr
    have hpf : passFn (o :: os) s0 = (finish s).p := by simp [passFn, hr]
    have hdf : (finish s).p.defer_ = some d := by
      cases hrn1 : d.runsNext with
      | nil => simp only [finish, endDefer_empty _ _ _ hinv.hd hrn1]; exact hinv.hd
      | cons r rs => exact (finish_inv s d r rs hinv hrn1).1
    refine ⟨?_, ?_⟩
    · simp only [pushes, hdf, reduceCtorEq, if_false]
      rw [← hpf, hf.2.1, passFn_count _ (isTlsWriteOf_chain _) s0 o os h0
        (by intro k j hj; simp [isTlsWriteOf]; omega), countOps_writeOf_zero _ _ hw]
      simp [acquireCode, isTlsWriteOf]
    · by_cases hc : runCount (o :: os) = 0
      · rw [hc] at hrn
        simp only [List.range'_zero] at hrn
        have hfin : (finish s).p = s.p := by
          simp only [finish, endDefer_empty _ _ _ hinv.hd hrn]
        simp only [restores, Function.trampoline, hfin, hinv.hd, hc, if_true]
        simp [Function.instrsOf, hinv.hproc]
      · obtain ⟨c, hc1⟩ : ∃ c, runCount (o :: os) = c + 1 :=
          ⟨runCount (o :: os) - 1, by omega⟩
        rw [hc1, List.range'_succ] at hrn
        obtain ⟨-, htr, -, -, -⟩ := finish_inv s d _ _ hinv hrn
        simp only [restores, Function.trampoline, hdf, htr, hc, if_false]
        rw [trampolineCode_counts isTlsWrite isTlsWrite_chain]
        simp [isTlsWrite]

/-- The example pass, with two exit points: one push, one restore. -/
theorem C10_witness :
    (Fresh exStart ∧ countOps isTlsWrite exStart.p = 0) ∧
      pushes (finish (okState exStart (runOps exOps exStart))).p = 1 ∧
      restores (finish (okState exStart (runOps exOps exStart))).p = 1 :=
  ⟨⟨by decide, by decide⟩,
   C10_push_and_restore_counts exStart (okState exStart (runOps exOps exStart)) exOps
     (by decide) (by decide) rfl⟩

/-! ## Selector and resume blocks (C3) -/

theorem runOps_append (pre rest : List Op) (s0 sk : BuildState)
    (hk : runOps pre s0 = Outcome.ok sk) : runOps (pre ++ rest) s0 = runOps rest sk := by
  induction pre generalizing s0 with
  | nil =>
    simp only [runOps, Outcome.ok.injEq] at hk
    subst hk; rfl
  | cons o os ih =>
    simp only [runOps, List.cons_append] at hk ⊢
    cases hst : step s0 o with
    | panicked msg p => simp [hst] at hk
    | ok s2 =>
      simp only [hst] at hk ⊢
      exact ih s2 hk

theorem step_pos (s s1 : BuildState) (o : Op) (hp : s.b.pos = InsertPoint.AtEnd)
    (h : step s o = Outcome.ok s1) : s1.b.pos = InsertPoint.AtEnd := by
  cases o with
  | runDefers =>
    have hg : s.b.getDefer s.p DoAction.DeferInCond =
      ((s.b.getDefer s.p DoAction.DeferInCond).1, (s.b.getDefer s.p DoAction.DeferInCond).2) :=
      rfl
    simp only [step, RunDefers_eq _ _ _ _ hg, Outcome.ok.injEq] at h
    subst h; rfl
  | defer kind fn args =>
    simp only [step] at h
    cases hD : s.b.Defer s.p kind fn args with
    | panicked msg p => simp [hD] at h
    | ok p1 =>
      simp only [hD, Outcome.ok.injEq] at h
      subst h; exact hp

theorem runOps_pos (ops : List Op) (s s1 : BuildState) (hp : s.b.pos = InsertPoint.AtEnd)
    (h : runOps ops s = Outcome.ok s1) : s1.b.pos = InsertPoint.AtEnd := by
  induction ops generalizing s with
  | nil =>
    simp only [runOps, Outcome.ok.injEq] at h
    subst h; exact hp
  | cons o os ih =>
    simp only [runOps] at h
    cases hst : step s o with
    | panicked msg p => simp [hst] at h
    | ok s2 =>
      simp only [hst] at h
      exact ih s2 (step_pos _ _ _ hp hst) h

theorem find_addCases (runs : List Nat) (k : Nat) (c i : Nat) (hic : i + c = runs.length)
    (hk : k < runs.length) :
    (addCases runs i c).find? (fun x => decide (x.1 = Expr.int k)) =
      if i ≤ k then some (Expr.int k, runs.getD k 0) else none := by
  induction c generalizing i with
  | zero =>
    have : ¬ i ≤ k := by omega
    simp [addCases, this]
  | succ c ih =>
    have hi : i < runs.length := by omega
    simp only [addCases, List.getElem?_eq_getElem hi, List.find?_cons]
    by_cases hik : i = k
    · subst hik
      simp [List.getD_eq_getElem?_getD, List.getElem?_eq_getElem hi]
    · have hne : ¬ ((Expr.int (i : Int)) = Expr.int (k : Int)) := by
        simp only [Expr.int.injEq, Nat.cast_inj]; exact hik
      simp only [hne, decide_False]
      rw [ih (i + 1) (by omega)]
      by_cases h1 : i ≤ k
      · have : i + 1 ≤ k := by omega
        simp [h1, this]
      · have : ¬ i + 1 ≤ k := by omega
        simp [h1, this]

theorem switchDest_addCases (r : Nat) (rs : List Nat) (k : Nat) (hk : k < (r :: rs).length) :
    switchDest r (addCases (r :: rs) 1 ((r :: rs).length - 1)) (Expr.int k) =
      (r :: rs).getD k 0 := by
  unfold switchDest
  rw [find_addCases (r :: rs) k _ 1 (by simp; omega) hk]
  by_cases h1 : 1 ≤ k
  · simp [h1]
  · have : k = 0 := by omega
    subst this
    simp

theorem acquire_before_exit (s0 sk : BuildState) (pre : List Op) (h0 : Fresh s0)
    (hk : runOps pre s0 = Outcome.ok sk) :
    ∃ da, Inv ⟨sk.b, (sk.b.getDefer sk.p DoAction.DeferInCond).1⟩ da ∧
      sk.p.blks.length ≤ (sk.b.getDefer sk.p DoAction.DeferInCond).1.blks.length ∧
      da.runsNext.length = runCount pre := by
  cases pre with
  | nil =>
    simp only [runOps, Outcome.ok.injEq] at hk
    subst hk
    obtain ⟨hinv, -⟩ := getDefer_inv_fresh s0 DoAction.DeferInCond h0
    obtain ⟨-, hlen, -⟩ := acquire_facts s0 DoAction.DeferInCond h0
    exact ⟨_, hinv, by omega, by simp [newDefer, runCount]⟩
  | cons o os =>
    obtain ⟨d, hinv, -, -, -, hrn, -⟩ := runOps_fresh o os s0 sk h0 hk
    rw [getDefer_inv sk d _ hinv]
    exact ⟨d, hinv, Nat.le_refl _, by simp [hrn]⟩

theorem instrsOf_exit (bs : List Block) (k i v n : Nat) (hk : k < bs.length) :
    (match (updBlock (fun B => { B with last := v }) i (bs ++ [⟨[], n⟩]))[k]? with
      | some B => B.instrs
      | none => []) =
    (match bs[k]? with
      | some B => B.instrs
      | none => []) := by
  rw [updBlock_getElem?, List.getElem?_append_left hk]
  by_cases h : i = k
  · simp [h, List.getElem?_eq_getElem hk]
  · simp [h]

theorem getElem?_append_length (xs : List Nat) (y : Nat) (ys : List Nat) :
    (xs ++ y :: ys)[xs.length]? = some y := by
  rw [List.getElem?_append_right (Nat.le_refl _)]
  simp

/-- C3: take any successful pass and any of its `RunDefers` calls, the one
made after the calls `pre`, so the `k`-th with `k` the number of `RunDefers`
in `pre`.  That call emits, at the end of the block it is made in, the store
of `k` into the selector field followed by the jump to the trampoline; it
creates a new block and continues in it; that block is entry `k` of the
resume-point table, whose entries are pairwise distinct and as many as there
are `RunDefers` calls; and the multi-way branch that ends the trampoline
switches on the loaded selector and sends the value `k` to that block. -/
theorem C3_selector_dispatches_to_own_resume_block (s0 sk s : BuildState)
    (pre post : List Op) (h0 : Fresh s0) (hpos : s0.b.pos = InsertPoint.AtEnd)
    (hk : runOps pre s0 = Outcome.ok sk)
    (hr : runOps (pre ++ Op.runDefers :: post) s0 = Outcome.ok s) :
    ∃ d, (finish s).p.defer_ = some d ∧
      (∃ pfx i, (sk.b.RunDefers sk.p).2.instrsOf sk.b.ipBlk =
        pfx ++ [⟨i, Opcode.store d.rundPtr (Expr.int (runCount pre))⟩,
                ⟨i + 1, Opcode.jump d.procBlk⟩]) ∧
      sk.p.blks.length ≤ (sk.b.RunDefers sk.p).1.ipBlk ∧
      (sk.b.RunDefers sk.p).2.instrsOf (sk.b.RunDefers sk.p).1.ipBlk = [] ∧
      (sk.b.RunDefers sk.p).1.ipBlk ≠ d.procBlk ∧
      d.runsNext.length = runCount (pre ++ Op.runDefers :: post) ∧
      d.runsNext.Nodup ∧
      d.runsNext[runCount pre]? = some (sk.b.RunDefers sk.p).1.ipBlk ∧
      ∃ pfx j dflt cases,
        (finish s).p.trampoline =
          pfx ++ [⟨j, Opcode.load d.rundPtr⟩, ⟨j + 1, Opcode.switch (Expr.reg j) dflt cases⟩] ∧
        switchDest dflt cases (Expr.int (runCount pre)) = (sk.b.RunDefers sk.p).1.ipBlk := by
  have hrest : runOps (Op.runDefers :: post) sk = Outcome.ok s := by
    rw [← runOps_append pre _ s0 sk hk]; exact hr
  obtain ⟨da, hia, hlen, hrl⟩ := acquire_before_exit s0 sk pre h0 hk
  have hposk : sk.b.pos = InsertPoint.AtEnd := runOps_pos pre s0 sk hpos hk
  have hga := getDefer_some sk.b _ DoAction.DeferInCond da hia.hd
  have hRD := RunDefers_eq sk.b _ _ da hga
  rw [RunDefers_acquire] at hRD
  have hrest1 := hrest
  rw [← runOps_acquire] at hrest1
  obtain ⟨d, hid, hf, -, -, hrn, -, -, -⟩ := runOps_inv _ _ _ _ hia hrest1
  simp only [opKind] at hrn hf
  have hrc : runCount (Op.runDefers :: post) = runCount post + 1 := by
    simp [runCount]
  rw [hrc, List.range'_succ] at hrn
  obtain ⟨r, rs, hrr⟩ : ∃ r rs, d.runsNext = r :: rs := by
    cases hx : d.runsNext with
    | nil => rw [hx] at hrn; simp at hrn
    | cons r rs => exact ⟨r, rs, rfl⟩
  obtain ⟨hfd, htr, -, -, -⟩ := finish_inv s d r rs hid hrr
  have hpl := procBlk_lt hia
  have hip := hia.hip
  simp only at hip hpl
  refine ⟨d, hfd, ?_, ?_, ?_, ?_, ?_, hid.hnodup, ?_, ?_⟩
  · refine ⟨(sk.b.getDefer sk.p DoAction.DeferInCond).1.instrsOf sk.b.ipBlk,
      (sk.b.getDefer sk.p DoAction.DeferInCond).1.nreg, ?_⟩
    rw [hRD]
    simp only [Function.instrsOf]
    rw [instrsOf_exit _ _ _ _ _ (by simpa using hip), emitCode_getElem?]
    simp only [if_true, List.getElem?_eq_getElem hip, Option.map_some', hposk,
      foldl_insertInstr_atEnd, exitCode, hrl, hf.2.2.2.1, hf.2.2.2.2]
  · rw [hRD]; exact hlen
  · rw [hRD]
    simp only [Function.instrsOf, updBlock_getElem?]
    have hne : sk.b.blk ≠ (sk.b.getDefer sk.p DoAction.DeferInCond).1.blks.length := by
      have := hia.hblk; simp only at this; omega
    rw [if_neg hne, List.getElem?_append_right (by simp)]
    simp
  · rw [hRD, hf.2.2.2.2]
    simp only
    omega
  · rw [hrn]
    simp only [List.length_append, List.length_cons, List.length_range', hrl]
    simp [runCount, List.countP_append]
  · rw [hRD, hrn, ← hrl]
    exact getElem?_append_length _ _ _
  · refine ⟨⟨s.p.nreg, Opcode.load d.bitsPtr⟩ ::
        thunksCode (Expr.reg s.p.nreg) d.stmts.reverse (s.p.nreg + 1) ++
        [⟨s.p.nreg + 1 + (thunksCode (Expr.reg s.p.nreg) d.stmts.reverse (s.p.nreg + 1)).length,
            Opcode.load d.data⟩,
         ⟨s.p.nreg + 1 + (thunksCode (Expr.reg s.p.nreg) d.stmts.reverse (s.p.nreg + 1)).length
            + 1,
            Opcode.getField (Expr.reg (s.p.nreg + 1 +
              (thunksCode (Expr.reg s.p.nreg) d.stmts.reverse (s.p.nreg + 1)).length)) 2⟩,
         ⟨s.p.nreg + 1 + (thunksCode (Expr.reg s.p.nreg) d.stmts.reverse (s.p.nreg + 1)).length
            + 2,
            Opcode.pthreadSetspecific d.key (Expr.reg (s.p.nreg + 1 +
              (thunksCode (Expr.reg s.p.nreg) d.stmts.reverse (s.p.nreg + 1)).length + 1))⟩],
      s.p.nreg + 1 + (thunksCode (Expr.reg s.p.nreg) d.stmts.reverse (s.p.nreg + 1)).length + 3,
      r, addCases d.runsNext 1 (d.runsNext.length - 1), ?_, ?_⟩
    · simp only [Function.trampoline, hfd, htr, trampolineCode, restoreCode]
      simp
    · rw [hRD]
      have hkl : runCount pre < (r :: rs).length := by
        rw [← hrr, hrn, ← hrl]; simp
      rw [hrr, switchDest_addCases r rs _ hkl, ← hrr, hrn, ← hrl,
        List.getD_eq_getElem?_getD, getElem?_append_length]
      rfl

/-! ## Running the trampoline (C4, C2) -/

theorem bitMask_lt (j : Nat) (h : j < 64) : bitMask j = 2 ^ j := by
  unfold bitMask
  rw [Nat.one_shiftLeft]
  exact Nat.mod_eq_of_lt (Nat.pow_lt_pow_right (by decide) h)

theorem and_two_pow_ne_zero (a j : Nat) : a &&& 2 ^ j ≠ 0 ↔ a.testBit j = true := by
  constructor
  · intro h
    obtain ⟨i, hi⟩ := Nat.ne_zero_implies_bit_true h
    rw [Nat.testBit_and, Nat.testBit_two_pow] at hi
    simp only [Bool.and_eq_true, decide_eq_true_eq] at hi
    rw [hi.2]; exact hi.1
  · intro h hz
    have : (a &&& 2 ^ j).testBit j = true := by
      rw [Nat.testBit_and, Nat.testBit_two_pow_self, h]; rfl
    rw [hz, Nat.zero_testBit] at this
    cases this

theorem testBit_foldl_or (reached : List Nat) (f j : Nat) :
    (reached.foldl (fun f i => f ||| 2 ^ i) f).testBit j = (f.testBit j || decide (j ∈ reached)) := by
  induction reached generalizing f with
  | nil => simp
  | cons i is ih =>
    simp only [List.foldl_cons, ih, Nat.testBit_or, Nat.testBit_two_pow, List.mem_cons]
    by_cases h : i = j
    · subst h; simp
    · have h2 : ¬ j = i := fun e => h e.symm
      simp [h, h2]

theorem regOf_cons (rs : List (Nat × RtVal)) (i j : Nat) (v : RtVal) :
    regOf ((i, v) :: rs) j = if i = j then v else regOf rs j := by
  simp only [regOf, List.find?_cons]
  by_cases h : i = j
  · simp [h]
  · have : (i == j) = false := by simp [h]
    simp [this, h]

theorem execBlock_append (m : Machine) (xs ys : List Instr) :
    execBlock m (xs ++ ys) = execBlock (execBlock m xs) ys := by
  simp [execBlock, List.foldl_append]

theorem exec_acquire (m : Machine) (n : Nat) :
    (execBlock m (acquireCode n)).reg (n + 2) = RtVal.recPtr ∧
      (execBlock m (acquireCode n)).reg (n + 4) = RtVal.fieldPtr 0 ∧
      (execBlock m (acquireCode n)).reg (n + 5) = RtVal.fieldPtr 2 ∧
      (execBlock m (acquireCode n)).record = [some 0, asField m.tls, none] ∧
      (execBlock m (acquireCode n)).tls = RtVal.recPtr ∧
      (execBlock m (acquireCode n)).calls = m.calls := by
  simp [execBlock, acquireCode, execInstr, Machine.eval, Machine.setReg, Machine.reg,
    regOf_cons, asField]

theorem exec_arm (m : Machine) (d : aDefer) (b j k f : Nat) (rest : List (Option Nat))
    (hb : d.bitsPtr = Expr.reg b) (hk : b < k)
    (hreg : m.reg b = RtVal.fieldPtr 0) (hrec : m.record = some f :: rest) :
    (execBlock m (armCode { d with nextBit := j } k)).reg b = RtVal.fieldPtr 0 ∧
      (execBlock m (armCode { d with nextBit := j } k)).record = some (f ||| bitMask j) :: rest ∧
      (execBlock m (armCode { d with nextBit := j } k)).calls = m.calls ∧
      (execBlock m (armCode { d with nextBit := j } k)).tls = m.tls ∧
      ∀ i, i < k → (execBlock m (armCode { d with nextBit := j } k)).reg i = m.reg i := by
  have h1 : ¬ k = b := by omega
  have h2 : ¬ k + 1 = b := by omega
  have hreg1 : regOf m.regs b = RtVal.fieldPtr 0 := hreg
  simp only [execBlock, armCode, List.foldl_cons, List.foldl_nil, execInstr, hb, Machine.eval,
    Machine.reg, hreg1, Machine.setReg, hrec, List.getD_cons_zero, ofField, regOf_cons, if_true,
    h1, h2, if_false, evalBin, asField, List.set_cons_zero]
  refine ⟨trivial, trivial, trivial, trivial, ?_⟩
  intro i hi
  have h3 : ¬ k = i := by omega
  have h4 : ¬ k + 1 = i := by omega
  simp [h3, h4]

theorem execInstr_calls (m : Machine) (i : Instr) (h : isCallOp i.op = false) :
    (execInstr m i).calls = m.calls := by
  unfold execInstr
  cases hop : i.op <;> simp only [hop, isCallOp] at h ⊢ <;> first
    | rfl
    | (split <;> rfl)
    | cases h

theorem execBlock_calls (m : Machine) (is : List Instr)
    (h : ∀ i ∈ is, isCallOp i.op = false) : (execBlock m is).calls = m.calls := by
  induction is generalizing m with
  | nil => rfl
  | cons i is ih =>
    simp only [execBlock, List.foldl_cons]
    have := ih (execInstr m i) (fun x hx => h x (List.mem_cons_of_mem _ hx))
    simp only [execBlock] at this
    rw [this, execInstr_calls m i (h i (List.mem_cons_self _ _))]

theorem exec_thunks (sts : List DeferStmt) (nb flags : Nat) (k : Nat) (m : Machine)
    (hk : nb < k) (hreg : m.reg nb = RtVal.num flags)
    (hmask : ∀ st ∈ sts, st.kind = DoAction.DeferInCond → ∃ mask, st.nextbit = Expr.uintptr mask) :
    (execBlock m (thunksCode (Expr.reg nb) sts k)).calls =
      m.calls ++ sts.filterMap (fun st => st.fires flags) := by
  induction sts generalizing m k with
  | nil => simp [thunksCode, execBlock]
  | cons st sts ih =>
    have hm := fun x hx => hmask x (List.mem_cons_of_mem _ hx)
    have hreg1 : regOf m.regs nb = RtVal.num flags := hreg
    have hk1 : nb < k + (stmtCode st (Expr.reg nb) k).length :=
      Nat.lt_of_lt_of_le hk (Nat.le_add_right _ _)
    simp only [thunksCode, execBlock_append, List.filterMap_cons]
    cases hkind : st.kind with
    | DeferAlways =>
      have e1 : execBlock m (stmtCode st (Expr.reg nb) k) =
          { m with calls := m.calls ++ [(st.fn, st.args)] } := by
        simp [stmtCode, hkind, execBlock, execInstr]
      have hr1 : Machine.reg { m with calls := m.calls ++ [(st.fn, st.args)] } nb =
          RtVal.num flags := hreg
      rw [e1, ih _ _ hk1 hr1 hm]
      simp [DeferStmt.fires, hkind]
    | DeferInCond =>
      obtain ⟨mask, hmk⟩ := hmask st (List.mem_cons_self _ _) hkind
      have h1 : ¬ k = nb := by omega
      have h2 : ¬ k + 1 = nb := by omega
      by_cases hz : flags &&& mask = 0
      · have e1 : (execBlock m (stmtCode st (Expr.reg nb) k)).calls = m.calls ∧
            (execBlock m (stmtCode st (Expr.reg nb) k)).reg nb = RtVal.num flags := by
          simp [stmtCode, hkind, execBlock, execInstr, Machine.eval, Machine.reg, hreg1, hmk,
            Machine.setReg, regOf_cons, evalBin, hz, h1, h2]
        rw [ih _ _ hk1 e1.2 hm, e1.1]
        simp [DeferStmt.fires, hkind, hmk, hz]
      · have e1 : (execBlock m (stmtCode st (Expr.reg nb) k)).calls =
              m.calls ++ [(st.fn, st.args)] ∧
            (execBlock m (stmtCode st (Expr.reg nb) k)).reg nb = RtVal.num flags := by
          simp [stmtCode, hkind, execBlock, execInstr, Machine.eval, Machine.reg, hreg1, hmk,
            Machine.setReg, regOf_cons, evalBin, hz, h1, h2]
        rw [ih _ _ hk1 e1.2 hm, e1.1]
        simp [DeferStmt.fires, hkind, hmk, hz]
    | DeferInLoop =>
      have e1 : execBlock m (stmtCode st (Expr.reg nb) k) = m := by
        simp [stmtCode, hkind, execBlock]
      rw [e1, ih _ _ hk1 hreg hm]
      simp [DeferStmt.fires, hkind]
    | other c =>
      have e1 : execBlock m (stmtCode st (Expr.reg nb) k) = m := by
        simp [stmtCode, hkind, execBlock]
      rw [e1, ih _ _ hk1 hreg hm]
      simp [DeferStmt.fires, hkind]

theorem exec_trampoline_calls (d : aDefer) (r n b flags : Nat) (rest : List (Option Nat))
    (m : Machine) (hb : d.bitsPtr = Expr.reg b) (hreg : m.reg b = RtVal.fieldPtr 0)
    (hrec : m.record = some flags :: rest)
    (hmask : ∀ st ∈ d.stmts, st.kind = DoAction.DeferInCond →
      ∃ mask, st.nextbit = Expr.uintptr mask) :
    (execBlock m (trampolineCode d r n)).calls =
      m.calls ++ (d.stmts.filterMap (fun st => st.fires flags)).reverse := by
  have h3 : trampolineCode d r n =
      [⟨n, Opcode.load d.bitsPtr⟩] ++ thunksCode (Expr.reg n) d.stmts.reverse (n + 1) ++
        restoreCode d r (n + 1 + (thunksCode (Expr.reg n) d.stmts.reverse (n + 1)).length) := by
    simp [trampolineCode]
  have hreg1 : regOf m.regs b = RtVal.fieldPtr 0 := hreg
  have e1 : execBlock m [⟨n, Opcode.load d.bitsPtr⟩] =
      { m with regs := (n, RtVal.num flags) :: m.regs } := by
    simp [execBlock, execInstr, hb, Machine.eval, Machine.reg, hreg1, hrec, ofField,
      Machine.setReg]
  rw [h3, execBlock_append, execBlock_append, execBlock_calls _ (restoreCode _ _ _)
    (by simp [restoreCode, isCallOp]), e1,
    exec_thunks d.stmts.reverse n flags (n + 1) _ (by omega)
      (by simp [Machine.reg, regOf_cons])
      (fun st hst => hmask st (List.mem_reverse.1 hst)),
    List.filterMap_reverse]

theorem exec_armAll (d : aDefer) (b : Nat) (hb : d.bitsPtr = Expr.reg b)
    (reached : List (Nat × Nat)) (hk : ∀ jk ∈ reached, b < jk.2) (m : Machine) (f : Nat)
    (rest : List (Option Nat)) (hreg : m.reg b = RtVal.fieldPtr 0)
    (hrec : m.record = some f :: rest) :
    (armAll d reached m).reg b = RtVal.fieldPtr 0 ∧
      (armAll d reached m).record =
        some (reached.foldl (fun f jk => f ||| bitMask jk.1) f) :: rest ∧
      (armAll d reached m).calls = m.calls := by
  induction reached generalizing m f with
  | nil => exact ⟨hreg, hrec, rfl⟩
  | cons jk js ih =>
    obtain ⟨h1, h2, h3, -, -⟩ :=
      exec_arm m d b jk.1 jk.2 f rest hb (hk jk (List.mem_cons_self _ _)) hreg hrec
    have := ih (fun x hx => hk x (List.mem_cons_of_mem _ hx)) _ _ h1 h2
    simp only [armAll, List.foldl_cons] at this ⊢
    rw [h3] at this
    exact this

theorem foldl_bitMask (reached : List (Nat × Nat)) (hj : ∀ jk ∈ reached, jk.1 < 64) (f : Nat) :
    reached.foldl (fun f jk => f ||| bitMask jk.1) f =
      (reached.map Prod.fst).foldl (fun f i => f ||| 2 ^ i) f := by
  induction reached generalizing f with
  | nil => rfl
  | cons jk js ih =>
    simp only [List.foldl_cons, List.map_cons]
    rw [bitMask_lt _ (hj jk (List.mem_cons_self _ _))]
    exact ih (fun x hx => hj x (List.mem_cons_of_mem _ hx)) _

theorem armed_test (reached : List (Nat × Nat)) (hj : ∀ jk ∈ reached, jk.1 < 64) (j : Nat)
    (h : j < 64) :
    (reached.foldl (fun f jk => f ||| bitMask jk.1) 0) &&& bitMask j ≠ 0 ↔
      j ∈ reached.map Prod.fst := by
  rw [foldl_bitMask reached hj, bitMask_lt j h, and_two_pow_ne_zero, testBit_foldl_or]
  simp

theorem stmtsFrom_mask (next : Nat) (ops : List Op) :
    ∀ st ∈ stmtsFrom next ops, st.kind = DoAction.DeferInCond →
      ∃ mask, st.nextbit = Expr.uintptr mask := by
  induction ops generalizing next with
  | nil => simp [stmtsFrom]
  | cons o os ih =>
    intro st hst hk
    rw [stmtsFrom_cons] at hst
    rcases List.mem_append.1 hst with h | h
    · cases o with
      | defer kind fn args =>
        cases kind <;> simp [stmtsFrom] at h
        · rw [h] at hk; cases hk
        · exact ⟨_, by rw [h]⟩
      | runDefers => simp [stmtsFrom] at h
    · exact ih _ st h hk

theorem fires_stmtsFrom (R : List Nat) (flags : Nat)
    (hR : ∀ j, j < 64 → (flags &&& bitMask j ≠ 0 ↔ j ∈ R)) (next : Nat) (ops : List Op)
    (hc : next + condCount ops ≤ 64) :
    (stmtsFrom next ops).filterMap (fun st => st.fires flags) = firedFrom R next ops := by
  induction ops generalizing next with
  | nil => simp [stmtsFrom, firedFrom]
  | cons o os ih =>
    rw [condCount_cons] at hc
    cases o with
    | runDefers => simp only [stmtsFrom, firedFrom]; exact ih next (by omega)
    | defer kind fn args =>
      cases kind with
      | DeferInCond =>
        have h1 : condCount [Op.defer DoAction.DeferInCond fn args] = 1 := by simp [condCount]
        rw [h1] at hc
        have hf : DeferStmt.fires
            ⟨DoAction.DeferInCond, fn, args, Expr.uintptr (bitMask next)⟩ flags =
            if flags &&& bitMask next ≠ 0 then some (fn, args) else none := rfl
        simp only [stmtsFrom, firedFrom, List.filterMap_cons, hf]
        rw [ih (next + 1) (by omega)]
        by_cases hm : next ∈ R
        · have := (hR next (by omega)).2 hm
          simp [hm, this]
        · have : ¬ (flags &&& bitMask next ≠ 0) := fun h => hm ((hR next (by omega)).1 h)
          simp [hm, this]
      | DeferAlways =>
        have h1 : condCount [Op.defer DoAction.DeferAlways fn args] = 0 := by simp [condCount]
        rw [h1] at hc
        have hf : DeferStmt.fires ⟨DoAction.DeferAlways, fn, args, Expr.nil⟩ flags =
            some (fn, args) := rfl
        simp only [stmtsFrom, firedFrom, List.filterMap_cons, hf]
        rw [ih next (by omega)]
      | DeferInLoop => simp only [stmtsFrom, firedFrom]; exact ih next (by omega)
      | other c => simp only [stmtsFrom, firedFrom]; exact ih next (by omega)

/-- C4: take a successful pass with at least one `RunDefers` and at most 64
conditional registrations.  Run the acquisition code (flags start at 0), then
the registration code of any reached conditional registrations, in any order
and any number of times (each stores flags OR its mask), then the trampoline.
The flag word then tests non-zero against the mask of conditional
registration `j` exactly if `j` was reached, and the trampoline calls, last
registered first, every unconditional target and exactly those conditional
targets whose registration was reached. -/
theorem C4_conditional_thunk_runs_iff_reached (s0 s : BuildState) (ops : List Op)
    (reached : List (Nat × Nat)) (mIn : Machine)
    (h0 : Fresh s0) (hr : runOps ops s0 = Outcome.ok s) (hrun : 1 ≤ runCount ops)
    (hc : condCount ops ≤ 64)
    (hreach : ∀ jk ∈ reached, jk.1 < condCount ops ∧ s0.p.nreg + 6 ≤ jk.2) :
    ∃ d flags rest, (finish s).p.defer_ = some d ∧
      condMasks d.stmts = (List.range (condCount ops)).map (fun j => Expr.uintptr (bitMask j)) ∧
      (armAll d reached (execBlock mIn (acquireCode s0.p.nreg))).record = some flags :: rest ∧
      (∀ j, j < condCount ops →
        (evalBin Tok.NEQ (evalBin Tok.AND (RtVal.num flags) (RtVal.num (bitMask j)))
            (RtVal.num 0) = RtVal.num 1 ↔ j ∈ reached.map Prod.fst)) ∧
      (execBlock (armAll d reached (execBlock mIn (acquireCode s0.p.nreg)))
          (finish s).p.trampoline).calls =
        mIn.calls ++ (firedFrom (reached.map Prod.fst) 0 ops).reverse := by
  cases ops with
  | nil => simp [runCount] at hrun
  | cons o os =>
    obtain ⟨d, hinv, hf, hst, -, hrn, -, -, -⟩ := runOps_fresh o os s0 s h0 hr
    obtain ⟨c, hc1⟩ : ∃ c, runCount (o :: os) = c + 1 := ⟨runCount (o :: os) - 1, by omega⟩
    rw [hc1, List.range'_succ] at hrn
    obtain ⟨hd, htr, -, -, -⟩ := finish_inv s d _ _ hinv hrn
    obtain ⟨-, ha4, -, harec, -, hacalls⟩ := exec_acquire mIn s0.p.nreg
    have hb := hf.2.2.1
    have hj64 : ∀ jk ∈ reached, jk.1 < 64 := fun jk h => by have := (hreach jk h).1; omega
    obtain ⟨hreg, hrec, hcalls⟩ := exec_armAll d (s0.p.nreg + 4) hb reached
      (fun jk h => by have := (hreach jk h).2; omega) _ 0 _ ha4 harec
    have htest : ∀ j, j < 64 →
        ((reached.foldl (fun f jk => f ||| bitMask jk.1) 0) &&& bitMask j ≠ 0 ↔
          j ∈ reached.map Prod.fst) := fun j hj => armed_test reached hj64 j hj
    refine ⟨d, _, _, hd, ?_, hrec, ?_, ?_⟩
    · rw [hst, condMasks_stmtsFrom, List.range_eq_range']
    · intro j hj
      rw [← htest j (by omega)]
      simp only [evalBin]
      by_cases hz : (reached.foldl (fun f jk => f ||| bitMask jk.1) 0) &&& bitMask j = 0
      · simp [hz]
      · simp [hz]
    · simp only [Function.trampoline, hd, htr]
      rw [exec_trampoline_calls d _ _ (s0.p.nreg + 4) _ _ _ hb hreg hrec
        (by rw [hst]; exact stmtsFrom_mask _ _), hcalls, hacalls, hst,
        fires_stmtsFrom _ _ htest 0 (o :: os) (by omega)]

/-- The example pass when only the second conditional registration was reached. -/
theorem C4_witness :
    (Fresh exStart ∧ 1 ≤ runCount exOps ∧ condCount exOps ≤ 64) ∧
      ∃ d flags rest, (finish (okState exStart (runOps exOps exStart))).p.defer_ = some d ∧
        condMasks d.stmts =
          (List.range (condCount exOps)).map (fun j => Expr.uintptr (bitMask j)) ∧
        (armAll d [(1, 20)] (execBlock (Machine.entry 7777) (acquireCode exStart.p.nreg))).record
          = some flags :: rest ∧
        (∀ j, j < condCount exOps →
          (evalBin Tok.NEQ (evalBin Tok.AND (RtVal.num flags) (RtVal.num (bitMask j)))
              (RtVal.num 0) = RtVal.num 1 ↔ j ∈ [(1, 20)].map Prod.fst)) ∧
        (execBlock (armAll d [(1, 20)] (execBlock (Machine.entry 7777)
            (acquireCode exStart.p.nreg)))
            (finish (okState exStart (runOps exOps exStart))).p.trampoline).calls =
          (Machine.entry 7777).calls ++ (firedFrom ([(1, 20)].map Prod.fst) 0 exOps).reverse :=
  ⟨⟨by decide, by decide, by decide⟩,
   C4_conditional_thunk_runs_iff_reached exStart (okState exStart (runOps exOps exStart)) exOps
     [(1, 20)] (Machine.entry 7777) (by decide) rfl (by decide) (by decide) (by decide)⟩

/-- C2 fails on the code: for one unconditional registration and one exit
point, `getDefer` allocates the record with the previous chain head in field
1 and takes field 2 as the selector, but the trampoline emitted by `endDefer`
writes back field 2.  Entered with chain head 7777 in the thread-local slot,
the generated code leaves the selector value 0 in the slot, while the link
field still holds 7777. -/
theorem C2_trampoline_writes_back_selector_field :
    isPanic (runOps exOneExit exOpen) = false ∧
      (passFn exOneExit exOpen).instrsOf 0 =
        [⟨0, Opcode.load (Expr.ext 9)⟩,
         ⟨1, Opcode.load (Expr.global deferKey)⟩,
         ⟨2, Opcode.pthreadGetspecific (Expr.reg 1)⟩,
         ⟨3, Opcode.aggregateAlloca [Expr.uintptr 0, Expr.reg 2]⟩,
         ⟨4, Opcode.pthreadSetspecific (Expr.reg 1) (Expr.reg 3)⟩,
         ⟨5, Opcode.fieldAddr (Expr.reg 3) 0⟩,
         ⟨6, Opcode.fieldAddr (Expr.reg 3) 2⟩,
         ⟨7, Opcode.store (Expr.reg 6) (Expr.int 0)⟩,
         ⟨8, Opcode.jump 1⟩] ∧
      (passFn exOneExit exOpen).trampoline =
        [⟨9, Opcode.load (Expr.reg 5)⟩,
         ⟨10, Opcode.call (Expr.ext 1) []⟩,
         ⟨11, Opcode.load (Expr.reg 3)⟩,
         ⟨12, Opcode.getField (Expr.reg 11) 2⟩,
         ⟨13, Opcode.pthreadSetspecific (Expr.reg 1) (Expr.reg 12)⟩,
         ⟨14, Opcode.load (Expr.reg 6)⟩,
         ⟨15, Opcode.switch (Expr.reg 14) 2 []⟩] ∧
      (Machine.entry 7777).tls = RtVal.num 7777 ∧
      (runFrom (passFn exOneExit exOpen) 3 0 (Machine.entry 7777)).record =
        [some 0, some 7777, some 0] ∧
      (runFrom (passFn exOneExit exOpen) 3 0 (Machine.entry 7777)).tls = RtVal.num 0 := by
  decide

/-- The second exit point of the example pass. -/
theorem C3_witness :
    (Fresh exStart ∧ exStart.b.pos = InsertPoint.AtEnd) ∧
      ∃ d, (finish (okState exStart (runOps exOps exStart))).p.defer_ = some d ∧
        (∃ pfx i,
          ((okState exStart (runOps (exOps.take 4) exStart)).b.RunDefers
              (okState exStart (runOps (exOps.take 4) exStart)).p).2.instrsOf
            (okState exStart (runOps (exOps.take 4) exStart)).b.ipBlk =
          pfx ++ [⟨i, Opcode.store d.rundPtr (Expr.int (runCount (exOps.take 4)))⟩,
                  ⟨i + 1, Opcode.jump d.procBlk⟩]) ∧
        (okState exStart (runOps (exOps.take 4) exStart)).p.blks.length ≤
          ((okState exStart (runOps (exOps.take 4) exStart)).b.RunDefers
            (okState exStart (runOps (exOps.take 4) exStart)).p).1.ipBlk ∧
        ((okState exStart (runOps (exOps.take 4) exStart)).b.RunDefers
            (okState exStart (runOps (exOps.take 4) exStart)).p).2.instrsOf
          ((okState exStart (runOps (exOps.take 4) exStart)).b.RunDefers
            (okState exStart (runOps (exOps.take 4) exStart)).p).1.ipBlk = [] ∧
        ((okState exStart (runOps (exOps.take 4) exStart)).b.RunDefers
            (okState exStart (runOps (exOps.take 4) exStart)).p).1.ipBlk ≠ d.procBlk ∧
        d.runsNext.length = runCount (exOps.take 4 ++ Op.runDefers :: []) ∧
        d.runsNext.Nodup ∧
        d.runsNext[runCount (exOps.take 4)]? =
          some ((okState exStart (runOps (exOps.take 4) exStart)).b.RunDefers
            (okState exStart (runOps (exOps.take 4) exStart)).p).1.ipBlk ∧
        ∃ pfx j dflt cases,
          (finish (okState exStart (runOps exOps exStart))).p.trampoline =
            pfx ++ [⟨j, Opcode.load d.rundPtr⟩,
                    ⟨j + 1, Opcode.switch (Expr.reg j) dflt cases⟩] ∧
          switchDest dflt cases (Expr.int (runCount (exOps.take 4))) =
            ((okState exStart (runOps (exOps.take 4) exStart)).b.RunDefers
              (okState exStart (runOps (exOps.take 4) exStart)).p).1.ipBlk :=
  ⟨⟨by decide, by decide⟩,
   C3_selector_dispatches_to_own_resume_block exStart
     (okState exStart (runOps (exOps.take 4) exStart))
     (okState exStart (runOps exOps exStart)) (exOps.take 4) [] (by decide) (by decide) rfl rfl⟩

/-! ## Traps and signatures (C11, C13) -/

theorem Panic_eq (b : Builder) (p : Function) (v : Expr) :
    b.Panic p v =
      emitCode b [⟨p.nreg, Opcode.call (rtFunc "TracePanic") [v]⟩,
        ⟨p.nreg + 1, Opcode.unreachable⟩] p := by
  simp [Builder.Panic, emit_eq, emitCode_emitCode]

theorem Unreachable_eq (b : Builder) (p : Function) :
    b.Unreachable p = emitCode b [⟨p.nreg, Opcode.unreachable⟩] p := by
  simp [Builder.Unreachable, emit_eq]

/-- C11: with the builder standing at the end of an existing block,
`Panic(v)` appends to that block exactly the call of the runtime entry point
`TracePanic` with the argument `v` and, right after it, an unreachable
terminator, which is then the block's last instruction; `Unreachable()`
appends exactly one unreachable terminator.  Neither touches another block,
the number of blocks or the defer state, and the function holds exactly
these instructions more than before. -/
theorem C11_panic_emits_trace_call_then_unreachable (b : Builder) (p : Function) (v : Expr)
    (hip : b.ipBlk < p.blks.length) (hpos : b.pos = InsertPoint.AtEnd) :
    ((b.Panic p v).instrsOf b.ipBlk =
        p.instrsOf b.ipBlk ++
          [⟨p.nreg, Opcode.call (rtFunc "TracePanic") [v]⟩, ⟨p.nreg + 1, Opcode.unreachable⟩] ∧
      (∀ k, k ≠ b.ipBlk → (b.Panic p v).instrsOf k = p.instrsOf k) ∧
      (b.Panic p v).allInstrs.Perm (p.allInstrs ++
          [⟨p.nreg, Opcode.call (rtFunc "TracePanic") [v]⟩, ⟨p.nreg + 1, Opcode.unreachable⟩]) ∧
      (b.Panic p v).blks.length = p.blks.length ∧ (b.Panic p v).defer_ = p.defer_) ∧
    ((b.Unreachable p).instrsOf b.ipBlk =
        p.instrsOf b.ipBlk ++ [⟨p.nreg, Opcode.unreachable⟩] ∧
      (∀ k, k ≠ b.ipBlk → (b.Unreachable p).instrsOf k = p.instrsOf k) ∧
      (b.Unreachable p).allInstrs.Perm (p.allInstrs ++ [⟨p.nreg, Opcode.unreachable⟩]) ∧
      (b.Unreachable p).blks.length = p.blks.length ∧ (b.Unreachable p).defer_ = p.defer_) := by
  rw [Panic_eq, Unreachable_eq]
  refine ⟨⟨?_, ?_, emitCode_allInstrs _ _ _ hip, by simp, rfl⟩,
    ⟨?_, ?_, emitCode_allInstrs _ _ _ hip, by simp, rfl⟩⟩
  · rw [emitCode_instrsOf, hpos, foldl_insertInstr_atEnd]; simp [hip]
  · intro k hk; rw [emitCode_instrsOf]; simp [Ne.symm hk]
  · rw [emitCode_instrsOf, hpos, foldl_insertInstr_atEnd]; simp [hip]
  · intro k hk; rw [emitCode_instrsOf]; simp [Ne.symm hk]

/-- The open entry block of the example function after `Panic` and after
`Unreachable`. -/
theorem C11_witness :
    (exOpen.b.ipBlk < exOpen.p.blks.length ∧ exOpen.b.pos = InsertPoint.AtEnd) ∧
      (exOpen.b.Panic exOpen.p (Expr.ext 7)).instrsOf 0 =
        [⟨0, Opcode.load (Expr.ext 9)⟩, ⟨1, Opcode.call (rtFunc "TracePanic") [Expr.ext 7]⟩,
         ⟨2, Opcode.unreachable⟩] ∧
      (exOpen.b.Unreachable exOpen.p).instrsOf 0 =
        [⟨0, Opcode.load (Expr.ext 9)⟩, ⟨1, Opcode.unreachable⟩] :=
  ⟨⟨by decide, by decide⟩,
   (C11_panic_emits_trace_call_then_unreachable exOpen.b exOpen.p (Expr.ext 7)
      (by decide) (by decide)).1.1,
   (C11_panic_emits_trace_call_then_unreachable exOpen.b exOpen.p (Expr.ext 7)
      (by decide) (by decide)).2.1⟩

theorem after_cache (cs : List Bool) (p : Program)
    (h1 : p.sigsetjmpTy = none ∨
      p.sigsetjmpTy = some ⟨[⟨"", CType.VoidPtr⟩, ⟨"", CType.CInt⟩], [⟨"", CType.CInt⟩], false⟩)
    (h2 : p.sigljmpTy = none ∨
      p.sigljmpTy = some ⟨[⟨"", CType.VoidPtr⟩, ⟨"", CType.CInt⟩], [], false⟩) :
    ((Program.after cs p).sigsetjmpTy = none ∨
      (Program.after cs p).sigsetjmpTy =
        some ⟨[⟨"", CType.VoidPtr⟩, ⟨"", CType.CInt⟩], [⟨"", CType.CInt⟩], false⟩) ∧
    ((Program.after cs p).sigljmpTy = none ∨
      (Program.after cs p).sigljmpTy =
        some ⟨[⟨"", CType.VoidPtr⟩, ⟨"", CType.CInt⟩], [], false⟩) := by
  induction cs generalizing p with
  | nil => exact ⟨h1, h2⟩
  | cons c cs ih =>
    cases c with
    | true =>
      simp only [Program.after]
      apply ih
      · rcases h1 with h | h <;> simp [Program.tySigsetjmp, h]
      · rcases h1 with h | h <;> simp [Program.tySigsetjmp, h, h2]
    | false =>
      simp only [Program.after]
      apply ih
      · rcases h2 with h | h <;> simp [Program.tySiglongjmp, h, h1]
      · rcases h2 with h | h <;> simp [Program.tySiglongjmp, h]

/-- C13: on a program whose caches start nil, after any sequence of earlier
requests, `tySigsetjmp` returns a non-variadic signature with exactly the two
parameters (void pointer, C int) and the one result (C int), and
`tySiglongjmp` a non-variadic signature with the same two parameters and no
result; each call leaves its signature in the cache. -/
theorem C13_setjmp_longjmp_signatures (cs : List Bool) :
    ((Program.after cs Program.new).tySigsetjmp.2.variadic = false ∧
      (Program.after cs Program.new).tySigsetjmp.2.params.map Var.typ =
        [CType.VoidPtr, CType.CInt] ∧
      (Program.after cs Program.new).tySigsetjmp.2.results.map Var.typ = [CType.CInt] ∧
      (Program.after cs Program.new).tySigsetjmp.1.sigsetjmpTy =
        some (Program.after cs Program.new).tySigsetjmp.2) ∧
    ((Program.after cs Program.new).tySiglongjmp.2.variadic = false ∧
      (Program.after cs Program.new).tySiglongjmp.2.params.map Var.typ =
        [CType.VoidPtr, CType.CInt] ∧
      (Program.after cs Program.new).tySiglongjmp.2.results = [] ∧
      (Program.after cs Program.new).tySiglongjmp.1.sigljmpTy =
        some (Program.after cs Program.new).tySiglongjmp.2) := by
  obtain ⟨h1, h2⟩ := after_cache cs Program.new (Or.inl rfl) (Or.inl rfl)
  constructor
  · rcases h1 with h | h <;> simp [Program.tySigsetjmp, h]
  · rcases h2 with h | h <;> simp [Program.tySiglongjmp, h]

/-! ## Shape of the trampoline (C12, C15) -/

theorem addCases_fst (runs : List Nat) (c i : Nat) (hic : i + c = runs.length) :
    (addCases runs i c).map Prod.fst =
      (List.range' i c).map (fun k : Nat => Expr.int (k : Int)) := by
  induction c generalizing i with
  | zero => simp [addCases]
  | succ c ih =>
    have hi : i < runs.length := by omega
    simp only [addCases, List.getElem?_eq_getElem hi, List.map_cons, List.range'_succ]
    rw [ih (i + 1) (by omega)]

theorem addCases_snd (runs : List Nat) (c i : Nat) (hic : i + c = runs.length) :
    (addCases runs i c).map Prod.snd = runs.drop i := by
  induction c generalizing i with
  | zero =>
    have : runs.length ≤ i := by omega
    simp [addCases, List.drop_eq_nil_of_le this]
  | succ c ih =>
    have hi : i < runs.length := by omega
    simp only [addCases, List.getElem?_eq_getElem hi, List.map_cons]
    rw [ih (i + 1) (by omega), List.drop_eq_getElem_cons hi]

theorem thunksCode_thunkOps (bits : Expr) (sts : List DeferStmt) (n : Nat) :
    ∀ i ∈ thunksCode bits sts n, isThunkOp bits i.op = true := by
  induction sts generalizing n with
  | nil => simp [thunksCode]
  | cons st sts ih =>
    intro i hi
    simp only [thunksCode, List.mem_append] at hi
    rcases hi with hi | hi
    · cases hk : st.kind with
      | DeferAlways =>
        simp only [stmtCode, hk, List.mem_singleton] at hi
        simp [hi, isThunkOp]
      | DeferInCond =>
        simp only [stmtCode, hk, List.mem_cons, List.mem_singleton, List.not_mem_nil,
          or_false] at hi
        rcases hi with hi | hi | hi <;> simp [hi, isThunkOp]
      | DeferInLoop => simp [stmtCode, hk] at hi
      | other c => simp [stmtCode, hk] at hi
    · exact ih _ i hi

theorem thunksCode_flagTests (bits : Expr) (sts : List DeferStmt) (n : Nat) :
    (thunksCode bits sts n).countP (fun i => isFlagTest bits i.op) =
      sts.countP (fun st => decide (st.kind = DoAction.DeferInCond)) := by
  induction sts generalizing n with
  | nil => simp [thunksCode]
  | cons st sts ih =>
    simp only [thunksCode, List.countP_append, ih, List.countP_cons]
    cases hk : st.kind <;> simp [stmtCode, hk, isFlagTest]
    omega

theorem stmtsFrom_condCount (next : Nat) (ops : List Op) :
    (stmtsFrom next ops).countP (fun st => decide (st.kind = DoAction.DeferInCond)) =
      condCount ops := by
  induction ops generalizing next with
  | nil => simp [stmtsFrom, condCount]
  | cons o os ih =>
    rw [condCount_cons]
    cases o with
    | runDefers => simp [stmtsFrom, ih, condCount]
    | defer kind fn args =>
      cases kind <;> simp [stmtsFrom, ih, condCount, List.countP_cons]
      omega

theorem finish_trampoline (s0 s : BuildState) (ops : List Op) (h0 : Fresh s0)
    (hr : runOps ops s0 = Outcome.ok s) (hrun : 1 ≤ runCount ops) :
    ∃ d r rs, d.runsNext = r :: rs ∧ d.runsNext.length = runCount ops ∧
      d.stmts = stmtsFrom 0 ops ∧
      (d.key = Expr.reg s0.p.nreg ∧ d.data = Expr.reg (s0.p.nreg + 2) ∧
        d.bitsPtr = Expr.reg (s0.p.nreg + 4) ∧ d.rundPtr = Expr.reg (s0.p.nreg + 5) ∧
        d.procBlk = s0.p.blks.length) ∧
      (finish s).p.defer_ = some d ∧
      (finish s).p.trampoline = trampolineCode d r s.p.nreg := by
  cases ops with
  | nil => simp [runCount] at hrun
  | cons o os =>
    obtain ⟨d, hinv, hf, hst, -, hrn, -, -, -⟩ := runOps_fresh o os s0 s h0 hr
    have hlen : d.runsNext.length = runCount (o :: os) := by simp [hrn]
    obtain ⟨c, hc1⟩ : ∃ c, runCount (o :: os) = c + 1 := ⟨runCount (o :: os) - 1, by omega⟩
    rw [hc1, List.range'_succ] at hrn
    obtain ⟨hd, htr, -, -, -⟩ := finish_inv s d _ _ hinv hrn
    exact ⟨d, _, _, hrn, hlen, hst, hf, hd, by simp only [Function.trampoline, hd, htr]⟩

/-- C12: after a successful pass with `n >= 1` calls of `RunDefers`, the
trampoline ends in its only multi-way branch, and that branch has exactly `n`
arms, one for each index of the resume-point table: the default case, which
serves index 0, and `n - 1` added cases with the values `1 .. n - 1`; arm `k`
leads to entry `k` of the table, which is where the selector value `k` is
sent.  For `n = 1` the branch is the default case alone. -/
theorem C12_branch_has_one_arm_per_exit_point (s0 s : BuildState) (ops : List Op)
    (h0 : Fresh s0) (hr : runOps ops s0 = Outcome.ok s) (hrun : 1 ≤ runCount ops) :
    ∃ d pfx j v dflt cases, (finish s).p.defer_ = some d ∧
      (finish s).p.trampoline = pfx ++ [⟨j, Opcode.switch v dflt cases⟩] ∧
      (finish s).p.trampoline.countP (fun i => isSwitch i.op) = 1 ∧
      d.runsNext.length = runCount ops ∧
      dflt :: cases.map Prod.snd = d.runsNext ∧
      (dflt :: cases.map Prod.snd).length = runCount ops ∧
      cases.map Prod.fst =
        (List.range' 1 (runCount ops - 1)).map (fun k : Nat => Expr.int (k : Int)) ∧
      (∀ k, k < runCount ops → d.runsNext[k]? = some (switchDest dflt cases (Expr.int k))) ∧
      (runCount ops = 1 → cases = []) := by
  obtain ⟨d, r, rs, hrn, hlen, -, -, hd, htr⟩ := finish_trampoline s0 s ops h0 hr hrun
  have hic : 1 + (d.runsNext.length - 1) = d.runsNext.length := by omega
  have hsnd := addCases_snd d.runsNext (d.runsNext.length - 1) 1 hic
  have hfst := addCases_fst d.runsNext (d.runsNext.length - 1) 1 hic
  have harms : r :: (addCases d.runsNext 1 (d.runsNext.length - 1)).map Prod.snd =
      d.runsNext := by
    rw [hsnd, hrn]; rfl
  obtain ⟨T, hT⟩ : ∃ T, T = thunksCode (Expr.reg s.p.nreg) d.stmts.reverse (s.p.nreg + 1) :=
    ⟨_, rfl⟩
  refine ⟨d,
    ⟨s.p.nreg, Opcode.load d.bitsPtr⟩ :: T ++
      [⟨s.p.nreg + 1 + T.length, Opcode.load d.data⟩,
       ⟨s.p.nreg + 1 + T.length + 1, Opcode.getField (Expr.reg (s.p.nreg + 1 + T.length)) 2⟩,
       ⟨s.p.nreg + 1 + T.length + 2,
         Opcode.pthreadSetspecific d.key (Expr.reg (s.p.nreg + 1 + T.length + 1))⟩,
       ⟨s.p.nreg + 1 + T.length + 3, Opcode.load d.rundPtr⟩],
    s.p.nreg + 1 + T.length + 4, Expr.reg (s.p.nreg + 1 + T.length + 3), r,
    addCases d.runsNext 1 (d.runsNext.length - 1), hd, ?_, ?_, hlen,
    harms, by rw [harms, hlen], by rw [hfst, hlen], ?_, ?_⟩
  · rw [htr, hT]
    simp [trampolineCode, restoreCode]
  · have hth : (thunksCode (Expr.reg s.p.nreg) d.stmts.reverse (s.p.nreg + 1)).countP
        (fun i => isSwitch i.op) = 0 := by
      rw [List.countP_eq_zero]
      intro i hi
      have := thunksCode_thunkOps _ _ _ i hi
      cases hop : i.op <;> simp_all [isThunkOp, isSwitch]
    rw [htr]
    simp only [trampolineCode, restoreCode, List.countP_cons, List.countP_append, hth,
      List.countP_nil]
    simp [isSwitch]
  · intro k hk
    have hkl : k < (r :: rs).length := by rw [← hrn, hlen]; exact hk
    have := switchDest_addCases r rs k hkl
    rw [← hrn] at this
    rw [this, List.getD_eq_getElem?_getD, hrn, List.getElem?_eq_getElem hkl]
    rfl
  · intro h1
    rw [hlen, h1]
    rfl

/-- The example pass has two exit points: its branch has two arms. -/
theorem C12_witness :
    (Fresh exStart ∧ 1 ≤ runCount exOps) ∧
      ∃ d pfx j v dflt cases, (finish (okState exStart (runOps exOps exStart))).p.defer_ = some d ∧
        (finish (okState exStart (runOps exOps exStart))).p.trampoline =
          pfx ++ [⟨j, Opcode.switch v dflt cases⟩] ∧
        (finish (okState exStart (runOps exOps exStart))).p.trampoline.countP
          (fun i => isSwitch i.op) = 1 ∧
        d.runsNext.length = runCount exOps ∧
        dflt :: cases.map Prod.snd = d.runsNext ∧
        (dflt :: cases.map Prod.snd).length = runCount exOps ∧
        cases.map Prod.fst =
          (List.range' 1 (runCount exOps - 1)).map (fun k : Nat => Expr.int (k : Int)) ∧
        (∀ k, k < runCount exOps →
          d.runsNext[k]? = some (switchDest dflt cases (Expr.int k))) ∧
        (runCount exOps = 1 → cases = []) :=
  ⟨⟨by decide, by decide⟩,
   C12_branch_has_one_arm_per_exit_point exStart (okState exStart (runOps exOps exStart)) exOps
     (by decide) rfl (by decide)⟩

/-- C15: after a successful pass with at least one `RunDefers`, the
trampoline is the load of the flag vector, then the thunks, then the restore
of the thread-local slot, then the selector load and its multi-way branch.
The thunk part holds every registered thunk, nothing but thunk instructions
(so no load, no slot write, no branch), and one flag test per conditional
registration, each on the value of that first load; the flag vector is loaded
nowhere else in the trampoline. -/
theorem C15_trampoline_loads_flags_once_then_thunks_then_restore (s0 s : BuildState)
    (ops : List Op) (h0 : Fresh s0) (hr : runOps ops s0 = Outcome.ok s)
    (hrun : 1 ≤ runCount ops) :
    ∃ d n thunks m fld dflt cases, (finish s).p.defer_ = some d ∧
      (finish s).p.trampoline =
        ⟨n, Opcode.load d.bitsPtr⟩ :: thunks ++
          [⟨m, Opcode.load d.data⟩,
           ⟨m + 1, Opcode.getField (Expr.reg m) fld⟩,
           ⟨m + 2, Opcode.pthreadSetspecific d.key (Expr.reg (m + 1))⟩,
           ⟨m + 3, Opcode.load d.rundPtr⟩,
           ⟨m + 4, Opcode.switch (Expr.reg (m + 3)) dflt cases⟩] ∧
      (∀ i ∈ thunks, isThunkOp (Expr.reg n) i.op = true) ∧
      thunkCalls thunks = (registrations ops).reverse ∧
      thunks.countP (fun i => isFlagTest (Expr.reg n) i.op) = condCount ops ∧
      (finish s).p.trampoline.countP (fun i => decide (i.op = Opcode.load d.bitsPtr)) = 1 := by
  obtain ⟨d, r, rs, -, -, hst, hf, hd, htr⟩ := finish_trampoline s0 s ops h0 hr hrun
  have hkind : ∀ st ∈ d.stmts.reverse,
      st.kind = DoAction.DeferInCond ∨ st.kind = DoAction.DeferAlways := by
    intro st hst1
    rw [hst] at hst1
    exact stmtsFrom_kind _ _ st (List.mem_reverse.1 hst1)
  have hops := thunksCode_thunkOps (Expr.reg s.p.nreg) d.stmts.reverse (s.p.nreg + 1)
  have hcalls := thunkCalls_thunksCode (Expr.reg s.p.nreg) d.stmts.reverse (s.p.nreg + 1) hkind
  have htests := thunksCode_flagTests (Expr.reg s.p.nreg) d.stmts.reverse (s.p.nreg + 1)
  obtain ⟨T, hT⟩ : ∃ T, T = thunksCode (Expr.reg s.p.nreg) d.stmts.reverse (s.p.nreg + 1) :=
    ⟨_, rfl⟩
  rw [← hT] at hops hcalls htests
  have hshape : (finish s).p.trampoline =
      ⟨s.p.nreg, Opcode.load d.bitsPtr⟩ :: T ++
        [⟨s.p.nreg + 1 + T.length, Opcode.load d.data⟩,
         ⟨s.p.nreg + 1 + T.length + 1, Opcode.getField (Expr.reg (s.p.nreg + 1 + T.length)) 2⟩,
         ⟨s.p.nreg + 1 + T.length + 2,
           Opcode.pthreadSetspecific d.key (Expr.reg (s.p.nreg + 1 + T.length + 1))⟩,
         ⟨s.p.nreg + 1 + T.length + 3, Opcode.load d.rundPtr⟩,
         ⟨s.p.nreg + 1 + T.length + 4,
           Opcode.switch (Expr.reg (s.p.nreg + 1 + T.length + 3)) r
             (addCases d.runsNext 1 (d.runsNext.length - 1))⟩] := by
    rw [htr, hT]
    simp [trampolineCode, restoreCode]
  refine ⟨d, s.p.nreg, T, s.p.nreg + 1 + T.length, 2, r,
    addCases d.runsNext 1 (d.runsNext.length - 1), hd, hshape, hops, ?_, ?_, ?_⟩
  · rw [hcalls, List.map_reverse, hst, stmtsFrom_view _ _ (runOps_ok_kind _ _ _ hr)]
  · rw [htests, List.countP_reverse, hst, stmtsFrom_condCount]
  · have hth : T.countP (fun i => decide (i.op = Opcode.load d.bitsPtr)) = 0 := by
      rw [List.countP_eq_zero]
      intro i hi
      have := hops i hi
      cases hop : i.op <;> simp_all [isThunkOp]
    rw [hshape]
    simp only [List.countP_cons, List.countP_append, hth, List.countP_nil]
    simp [hf.2.1, hf.2.2.1, hf.2.2.2.1]

/-- The example pass: one flag load, three thunks, two of them conditional. -/
theorem C15_witness :
    (Fresh exStart ∧ 1 ≤ runCount exOps) ∧
      ∃ d n thunks m fld dflt cases,
        (finish (okState exStart (runOps exOps exStart))).p.defer_ = some d ∧
        (finish (okState exStart (runOps exOps exStart))).p.trampoline =
          ⟨n, Opcode.load d.bitsPtr⟩ :: thunks ++
            [⟨m, Opcode.load d.data⟩,
             ⟨m + 1, Opcode.getField (Expr.reg m) fld⟩,
             ⟨m + 2, Opcode.pthreadSetspecific d.key (Expr.reg (m + 1))⟩,
             ⟨m + 3, Opcode.load d.rundPtr⟩,
             ⟨m + 4, Opcode.switch (Expr.reg (m + 3)) dflt cases⟩] ∧
        (∀ i ∈ thunks, isThunkOp (Expr.reg n) i.op = true) ∧
        thunkCalls thunks = (registrations exOps).reverse ∧
        thunks.countP (fun i => isFlagTest (Expr.reg n) i.op) = condCount exOps ∧
        (finish (okState exStart (runOps exOps exStart))).p.trampoline.countP
          (fun i => decide (i.op = Opcode.load d.bitsPtr)) = 1 :=
  ⟨⟨by decide, by decide⟩,
   C15_trampoline_loads_flags_once_then_thunks_then_restore exStart
     (okState exStart (runOps exOps exStart)) exOps (by decide) rfl (by decide)⟩

/-! ## Width of the flag word (C14) -/

theorem step_ok (s : BuildState) (o : Op)
    (hk : opKind o = DoAction.DeferInCond ∨ opKind o = DoAction.DeferAlways) :
    ∃ s1, step s o = Outcome.ok s1 := by
  cases o with
  | runDefers => exact ⟨_, rfl⟩
  | defer kind fn args =>
    have hg : s.b.getDefer s.p kind =
      ((s.b.getDefer s.p kind).1, (s.b.getDefer s.p kind).2) := rfl
    simp only [opKind] at hk
    rcases hk with hk | hk
    · subst hk
      simp only [step, Defer_cond _ _ _ _ _ _ hg]
      exact ⟨_, rfl⟩
    · subst hk
      simp only [step, Defer_always _ _ _ _ _ _ hg]
      exact ⟨_, rfl⟩

theorem runOps_ok (ops : List Op) (s : BuildState)
    (hk : ∀ o ∈ ops, opKind o = DoAction.DeferInCond ∨ opKind o = DoAction.DeferAlways) :
    ∃ s1, runOps ops s = Outcome.ok s1 := by
  induction ops generalizing s with
  | nil => exact ⟨s, rfl⟩
  | cons o os ih =>
    obtain ⟨s2, h2⟩ := step_ok s o (hk o (List.mem_cons_self _ _))
    obtain ⟨s1, h1⟩ := ih s2 (fun x hx => hk x (List.mem_cons_of_mem _ hx))
    exact ⟨s1, by simp only [runOps, h2, h1]⟩

theorem condMasks_getElem? (s0 s : BuildState) (ops : List Op) (h0 : Fresh s0)
    (hr : runOps ops s0 = Outcome.ok s) (j : Nat) (hj : j < condCount ops) :
    (condMasks (stmtsOf s.p))[j]? = some (Expr.uintptr (bitMask j)) := by
  rw [(runOps_fresh_stmts ops s0 s h0 hr).1, condMasks_stmtsFrom, List.getElem?_map,
    List.getElem?_range' _ _ hj]
  simp

/-- C14, as stated, fails: in a successful pass with sixty-five conditional
registrations the sixty-fifth (index 64) is given the mask 0, so its bit is
dropped. -/
theorem C14_counterexample :
    isPanic (runOps exManyCond exStart) = false ∧
      (condMasks (stmtsOf (okState exStart (runOps exManyCond exStart)).p))[64]? =
        some (Expr.uintptr 0) := by
  obtain ⟨s1, h1⟩ := runOps_ok exManyCond exStart (by decide)
  rw [h1]
  refine ⟨rfl, ?_⟩
  simp only [okState]
  rw [condMasks_getElem? exStart s1 exManyCond (by decide) h1 64 (by decide)]
  rfl

/-- C14, amended: in every successful pass, whatever the number of
conditional registrations, the `j`-th of them with `j < 64` is given the mask
`2 ^ j` of the 64-bit flag word: it is not zero and differs from the mask of
every earlier conditional registration. -/
theorem C14_masks_below_64_are_distinct_bits (s0 s : BuildState) (ops : List Op) (j : Nat)
    (h0 : Fresh s0) (hr : runOps ops s0 = Outcome.ok s) (hj : j < condCount ops)
    (h64 : j < 64) :
    (condMasks (stmtsOf s.p))[j]? = some (Expr.uintptr (2 ^ j)) ∧
      (condMasks (stmtsOf s.p))[j]? ≠ some (Expr.uintptr 0) ∧
      ∀ i, i < j → (condMasks (stmtsOf s.p))[i]? ≠ (condMasks (stmtsOf s.p))[j]? := by
  have hm := condMasks_getElem? s0 s ops h0 hr j hj
  rw [bitMask_lt j h64] at hm
  refine ⟨hm, ?_, ?_⟩
  · rw [hm]
    intro h
    simp only [Option.some.injEq, Expr.uintptr.injEq] at h
    exact absurd h (Nat.ne_of_gt (Nat.two_pow_pos j))
  · intro i hi
    rw [hm, condMasks_getElem? s0 s ops h0 hr i (by omega), bitMask_lt i (by omega)]
    intro h
    simp only [Option.some.injEq, Expr.uintptr.injEq] at h
    have := Nat.pow_right_injective (Nat.le_refl 2) h
    omega

/-- The example pass: the second conditional registration has the mask 2. -/
theorem C14_witness :
    (Fresh exStart ∧ 1 < condCount exOps) ∧
      (condMasks (stmtsOf (okState exStart (runOps exOps exStart)).p))[1]? =
        some (Expr.uintptr (2 ^ 1)) ∧
      (condMasks (stmtsOf (okState exStart (runOps exOps exStart)).p))[1]? ≠
        some (Expr.uintptr 0) ∧
      ∀ i, i < 1 → (condMasks (stmtsOf (okState exStart (runOps exOps exStart)).p))[i]? ≠
        (condMasks (stmtsOf (okState exStart (runOps exOps exStart)).p))[1]? :=
  ⟨⟨by decide, by decide⟩,
   C14_masks_below_64_are_distinct_bits exStart (okState exStart (runOps exOps exStart)) exOps 1
     (by decide) rfl (by decide) (by decide)⟩

/-! ## Where the record is acquired (C16) -/

theorem foldl_insertInstr_beforeLast (c front : List Instr) (l : Instr) :
    c.foldl (insertInstr InsertPoint.BeforeLast) (front ++ [l]) = front ++ c ++ [l] := by
  induction c generalizing front with
  | nil => simp
  | cons i c ih =>
    have h1 : insertInstr InsertPoint.BeforeLast (front ++ [l]) i = (front ++ [i]) ++ [l] := by
      simp [insertInstr]
    rw [List.foldl_cons, h1, ih]
    simp

theorem instrsOf_blks (p q : Function) (k : Nat) (h : p.blks = q.blks) :
    p.instrsOf k = q.instrsOf k := by
  simp [Function.instrsOf, h]

theorem instrsOf_append_block (p q : Function) (B : Block) (k : Nat)
    (h : p.blks = q.blks ++ [B]) (hk : k < q.blks.length) : p.instrsOf k = q.instrsOf k := by
  simp [Function.instrsOf, h, List.getElem?_append_left hk]

theorem getDefer_instrsOf (b : Builder) (p : Function) (kind : DoAction) (k : Nat)
    (hn : p.defer_ = none) (hk : k < p.blks.length) :
    (b.getDefer p kind).1.instrsOf k =
      (emitCode (acquireBuilder b p kind) (acquireCode p.nreg) p).instrsOf k := by
  rw [getDefer_none _ _ _ hn]
  exact instrsOf_append_block _ _ ⟨[], p.blks.length⟩ k rfl (by simpa using hk)

theorem entry_lt (b : Builder) (p : Function) (h0 : Fresh ⟨b, p⟩) :
    blockLast p 0 < p.blks.length := by
  have := acquireBuilder_ip ⟨b, p⟩ DoAction.DeferInCond h0
  simpa [acquireBuilder, Function.deferInitBuilder, Builder.SetBlockEx] using this

theorem getDefer_entry (b : Builder) (p : Function) (kind : DoAction) (front : List Instr)
    (lastI : Instr) (h0 : Fresh ⟨b, p⟩) (hk : kind ≠ DoAction.DeferAlways)
    (hentry : p.instrsOf (blockLast p 0) = front ++ [lastI]) :
    (b.getDefer p kind).1.instrsOf (blockLast p 0) = front ++ acquireCode p.nreg ++ [lastI] ∧
      ∀ k, k < p.blks.length → k ≠ blockLast p 0 →
        (b.getDefer p kind).1.instrsOf k = p.instrsOf k := by
  have he := entry_lt b p h0
  have hb : acquireBuilder b p kind = ⟨0, blockLast p 0, InsertPoint.BeforeLast⟩ := by
    simp [acquireBuilder, hk, Function.deferInitBuilder, Builder.SetBlockEx, Function.NewBuilder]
  refine ⟨?_, ?_⟩
  · rw [getDefer_instrsOf b p kind _ h0.1 he, hb, emitCode_instrsOf]
    simp only [true_and, he, if_true, hentry, foldl_insertInstr_beforeLast]
  · intro k hkl hke
    rw [getDefer_instrsOf b p kind _ h0.1 hkl, hb, emitCode_instrsOf]
    simp [Ne.symm hke]

theorem getDefer_always (b : Builder) (p : Function) (h0 : Fresh ⟨b, p⟩)
    (hpos : b.pos = InsertPoint.AtEnd) :
    (b.getDefer p DoAction.DeferAlways).1.instrsOf b.ipBlk =
        p.instrsOf b.ipBlk ++ acquireCode p.nreg ∧
      ∀ k, k < p.blks.length → k ≠ b.ipBlk →
        (b.getDefer p DoAction.DeferAlways).1.instrsOf k = p.instrsOf k := by
  have hip : b.ipBlk < p.blks.length := h0.2.2.1
  have hb : acquireBuilder b p DoAction.DeferAlways = b := by simp [acquireBuilder]
  refine ⟨?_, ?_⟩
  · rw [getDefer_instrsOf b p _ _ h0.1 hip, hb, emitCode_instrsOf, hpos,
      foldl_insertInstr_atEnd]
    simp [hip]
  · intro k hkl hke
    rw [getDefer_instrsOf b p _ _ h0.1 hkl, hb, emitCode_instrsOf]
    simp [Ne.symm hke]

/-- C16: on a function without record whose entry block ends in the
instruction `lastI`, with the body builder at the end of an existing block.
A `getDefer` of any kind but `DeferAlways`, a conditional registration and a
`RunDefers` put the acquisition instructions (slot read, allocation of the
zero-flag record, push, field addresses) into the entry block, right before
`lastI`, and not at the insertion point: the block the builder stands in,
when it is another one, only gets the call's own instructions (in the entry
block itself they follow `lastI`).  A `getDefer` of kind `DeferAlways` and an
unconditional registration put them at the insertion point and leave the
other blocks as they were. -/
theorem C16_first_acquisition_goes_to_entry_block (b : Builder) (p : Function)
    (front : List Instr) (lastI : Instr) (h0 : Fresh ⟨b, p⟩)
    (hpos : b.pos = InsertPoint.AtEnd)
    (hentry : p.instrsOf (blockLast p 0) = front ++ [lastI]) :
    (∀ kind, kind ≠ DoAction.DeferAlways →
      (b.getDefer p kind).1.instrsOf (blockLast p 0) =
          front ++ acquireCode p.nreg ++ [lastI] ∧
        ∀ k, k < p.blks.length → k ≠ blockLast p 0 →
          (b.getDefer p kind).1.instrsOf k = p.instrsOf k) ∧
    (∀ fn args,
      (deferFn (b.Defer p DoAction.DeferInCond fn args)).instrsOf (blockLast p 0) =
          front ++ acquireCode p.nreg ++ [lastI] ++
            (if b.ipBlk = blockLast p 0
              then armCode (newDefer p.nreg p.blks.length) (p.nreg + 6) else []) ∧
        (b.ipBlk ≠ blockLast p 0 →
          (deferFn (b.Defer p DoAction.DeferInCond fn args)).instrsOf b.ipBlk =
            p.instrsOf b.ipBlk ++ armCode (newDefer p.nreg p.blks.length) (p.nreg + 6))) ∧
    ((b.RunDefers p).2.instrsOf (blockLast p 0) =
        front ++ acquireCode p.nreg ++ [lastI] ++
          (if b.ipBlk = blockLast p 0
            then exitCode (newDefer p.nreg p.blks.length) (p.nreg + 6) else []) ∧
      (b.ipBlk ≠ blockLast p 0 →
        (b.RunDefers p).2.instrsOf b.ipBlk =
          p.instrsOf b.ipBlk ++ exitCode (newDefer p.nreg p.blks.length) (p.nreg + 6))) ∧
    ((b.getDefer p DoAction.DeferAlways).1.instrsOf b.ipBlk =
        p.instrsOf b.ipBlk ++ acquireCode p.nreg ∧
      ∀ k, k < p.blks.length → k ≠ b.ipBlk →
        (b.getDefer p DoAction.DeferAlways).1.instrsOf k = p.instrsOf k) ∧
    (∀ fn args,
      (deferFn (b.Defer p DoAction.DeferAlways fn args)).instrsOf b.ipBlk =
          p.instrsOf b.ipBlk ++ acquireCode p.nreg ∧
        ∀ k, k < p.blks.length → k ≠ b.ipBlk →
          (deferFn (b.Defer p DoAction.DeferAlways fn args)).instrsOf k = p.instrsOf k) := by
  have he := entry_lt b p h0
  have hip : b.ipBlk < p.blks.length := h0.2.2.1
  have hgc := getDefer_entry b p DoAction.DeferInCond front lastI h0 (by decide) hentry
  have hga := getDefer_always b p h0 hpos
  obtain ⟨-, hd2⟩ := getDefer_inv_fresh ⟨b, p⟩ DoAction.DeferInCond h0
  obtain ⟨-, hlen, hnreg⟩ := acquire_facts ⟨b, p⟩ DoAction.DeferInCond h0
  simp only at hd2 hlen hnreg
  have hpair : ∀ kind, b.getDefer p kind = ((b.getDefer p kind).1, (b.getDefer p kind).2) :=
    fun _ => rfl
  -- the block of a function that got `code` appended at the insertion point
  have hemit : ∀ (code : List Instr) (q : Function) (k : Nat),
      q.blks.length = p.blks.length + 1 →
      (emitCode b code q).instrsOf k =
        if b.ipBlk = k then q.instrsOf k ++ code else q.instrsOf k := by
    intro code q k hq
    rw [emitCode_instrsOf, hpos, foldl_insertInstr_atEnd]
    by_cases hbk : b.ipBlk = k
    · have : k < q.blks.length := by omega
      simp [hbk, this]
    · simp [hbk]
  refine ⟨fun kind hk => getDefer_entry b p kind front lastI h0 hk hentry, ?_, ?_, hga, ?_⟩
  · intro fn args
    rw [Defer_cond b p _ _ fn args (hpair _)]
    simp only [deferFn, hd2, hnreg]
    refine ⟨?_, ?_⟩
    · change (emitCode b (armCode (newDefer p.nreg p.blks.length) (p.nreg + 6))
        (b.getDefer p DoAction.DeferInCond).1).instrsOf (blockLast p 0) = _
      rw [hemit _ _ _ hlen, hgc.1]
      by_cases hbe : b.ipBlk = blockLast p 0 <;> simp [hbe]
    · intro hne
      change (emitCode b (armCode (newDefer p.nreg p.blks.length) (p.nreg + 6))
        (b.getDefer p DoAction.DeferInCond).1).instrsOf b.ipBlk = _
      rw [hemit _ _ _ hlen, hgc.2 _ hip hne]
      simp
  · rw [RunDefers_eq b p _ _ (hpair _)]
    simp only [hd2, hnreg, Function.instrsOf]
    refine ⟨?_, ?_⟩
    · rw [instrsOf_exit _ _ _ _ _ (by simpa [hlen] using Nat.lt_succ_of_lt he)]
      have := hemit (exitCode (newDefer p.nreg p.blks.length) (p.nreg + 6))
        (b.getDefer p DoAction.DeferInCond).1 (blockLast p 0) hlen
      simp only [Function.instrsOf] at this
      rw [this]
      have h1 := hgc.1
      simp only [Function.instrsOf] at h1
      rw [h1]
      by_cases hbe : b.ipBlk = blockLast p 0 <;> simp [hbe]
    · intro hne
      rw [instrsOf_exit _ _ _ _ _ (by simpa [hlen] using Nat.lt_succ_of_lt hip)]
      have := hemit (exitCode (newDefer p.nreg p.blks.length) (p.nreg + 6))
        (b.getDefer p DoAction.DeferInCond).1 b.ipBlk hlen
      simp only [Function.instrsOf] at this
      rw [this]
      have h1 := hgc.2 _ hip hne
      simp only [Function.instrsOf] at h1
      rw [h1]
      simp
  · intro fn args
    rw [Defer_always b p _ _ fn args (hpair _)]
    simp only [deferFn]
    exact ⟨(instrsOf_blks _ _ _ rfl).trans hga.1,
      fun k hk hne => (instrsOf_blks _ _ _ rfl).trans (hga.2 k hk hne)⟩

/-- A `RunDefers` made in the second block of the example function: the
acquisition lands in the entry block before its jump, the store of the
selector and the jump to the trampoline in the second block. -/
theorem C16_witness :
    (Fresh ⟨exBranch.b, exBranch.p⟩ ∧ exBranch.b.pos = InsertPoint.AtEnd ∧
      exBranch.p.instrsOf (blockLast exBranch.p 0) =
        [⟨0, Opcode.load (Expr.ext 9)⟩] ++ [⟨1, Opcode.jump 1⟩]) ∧
      (exBranch.b.RunDefers exBranch.p).2.instrsOf 0 =
        [⟨0, Opcode.load (Expr.ext 9)⟩] ++ acquireCode 2 ++ [⟨1, Opcode.jump 1⟩] ++ [] ∧
      (exBranch.b.RunDefers exBranch.p).2.instrsOf 1 =
        [] ++ exitCode (newDefer 2 2) 8 ∧
      (exBranch.b.getDefer exBranch.p DoAction.DeferAlways).1.instrsOf 1 =
        [] ++ acquireCode 2 :=
  ⟨⟨by decide, by decide, by decide⟩,
   (C16_first_acquisition_goes_to_entry_block exBranch.b exBranch.p
      [⟨0, Opcode.load (Expr.ext 9)⟩] ⟨1, Opcode.jump 1⟩ (by decide) (by decide)
      (by decide)).2.2.1.1,
   (C16_first_acquisition_goes_to_entry_block exBranch.b exBranch.p
      [⟨0, Opcode.load (Expr.ext 9)⟩] ⟨1, Opcode.jump 1⟩ (by decide) (by decide)
      (by decide)).2.2.1.2 (by decide),
   (C16_first_acquisition_goes_to_entry_block exBranch.b exBranch.p
      [⟨0, Opcode.load (Expr.ext 9)⟩] ⟨1, Opcode.jump 1⟩ (by decide) (by decide)
      (by decide)).2.2.2.1.1⟩

end EH
